import Mathlib

/-!
Verification development for the zee text-editing core (`src/zee-edit/src/lib.rs`)
and the file watcher (`src/zee/src/watcher.rs`).

The text buffer (a ropey `Rope` in the source) is embedded as a `List Char`;
character indices, byte indices and line indices follow ropey's semantics
(lines are split after each newline; `line_to_char len_lines = len_chars`).
Places where the Rust source would panic (division by zero, `usize` underflow)
are embedded as `Option`, returning `none` exactly when the source panics.
-/

namespace Zee

abbrev Text := List Char

def TAB_WIDTH : Nat := 4

/-- Number of newline characters in a text. -/
def count_newlines (t : Text) : Nat := (t.filter (fun c => c = '\n')).length

/-- `Rope::len_chars`. -/
def len_chars (t : Text) : Nat := t.length

/-- `Rope::len_lines`: number of lines, one more than the newline count. -/
def len_lines (t : Text) : Nat := count_newlines t + 1

/-- `Rope::char_to_line`: the line containing character index `i`
(the number of newlines strictly before `i`). -/
def char_to_line (t : Text) (i : Nat) : Nat := count_newlines (t.take i)

/-- `Rope::line_to_char`: character index of the start of line `i`
(`line_to_char len_lines = len_chars`; indices beyond that are clamped,
the source never passes them). -/
def line_to_char : Text → Nat → Nat
  | _, 0 => 0
  | [], _ + 1 => 0
  | c :: t, i + 1 => if c = '\n' then 1 + line_to_char t i else 1 + line_to_char t (i + 1)

/-- `Rope::line(i).len_chars()`: length of line `i`, trailing newline included. -/
def line_len (t : Text) (i : Nat) : Nat := line_to_char t (i + 1) - line_to_char t i

/-- `Rope::char_to_byte`: UTF-8 byte offset of character index `i`. -/
def char_to_byte (t : Text) (i : Nat) : Nat := ((t.take i).map Char.utf8Size).sum

/-- `Rope::insert_char(i, c)`. -/
def insert_at (t : Text) (i : Nat) (c : Char) : Text := t.take i ++ c :: t.drop i

/-- `Rope::remove(a..b)`. -/
def remove_range (t : Text) (a b : Nat) : Text := t.take a ++ t.drop b

/-- `Rope::slice(a..b)` materialised as a list (an owned copy). -/
def slice_range (t : Text) (a b : Nat) : Text := (t.drop a).take (b - a)

/-- `Rope::get_char(i)`. -/
def get_char (t : Text) (i : Nat) : Option Char := t[i]?

/-- `Rope::get_slice(a..b)`: `none` when the range is out of bounds. -/
def get_slice (t : Text) (a b : Nat) : Option Text :=
  if a ≤ b ∧ b ≤ t.length then some (slice_range t a b) else none

/-- Modelled from the spec: the Grapheme Index of `zee-edit/src/graphemes.rs` is
not under `src/`. Extended grapheme clusters are modelled for texts made of
ordinary characters and combining diacritical marks (U+0300–U+036F): a cluster
is a base character followed by a run of combining marks, matching the
spec's "zero/combining-width characters" that extend the preceding cluster. -/
def combining (c : Char) : Bool := decide (0x300 ≤ c.toNat ∧ c.toNat ≤ 0x36F)

/-- A character index `i ≤ len` is a grapheme-cluster boundary when it is not
immediately followed by a combining mark (0 and `len` are always boundaries). -/
def is_boundary (t : Text) (i : Nat) : Bool :=
  decide (i = 0) || decide (t.length ≤ i) || !(combining (t.getD i ' '))

/-- Modelled from the spec: `boundary_after` / `next_grapheme_boundary` of the
missing `graphemes.rs` — the nearest grapheme-cluster boundary strictly after
`i`, clamped to `[0, len]`. -/
def next_grapheme_boundary (t : Text) (i : Nat) : Nat :=
  if t.length ≤ i then t.length
  else i + 1 + ((t.drop (i + 1)).takeWhile combining).length

/-- Modelled from the spec: `boundary_before` / `prev_grapheme_boundary` of the
missing `graphemes.rs` — the nearest grapheme-cluster boundary strictly before
`i`, clamped to `[0, len]`. -/
def prev_grapheme_boundary (t : Text) (i : Nat) : Nat :=
  min i t.length - 1 -
    ((t.take (min i t.length)).reverse.takeWhile combining).length

/-- Modelled from the spec: `movement::Direction` of the missing `movement.rs`. -/
inductive Direction where
  | Forward
  | Backward
deriving DecidableEq, Repr

/-- The half-open character range `[start, stop)` of a cursor
(`range: Range<CharIndex>` in the source; `end` is a Lean keyword). -/
structure CRange where
  start : Nat
  stop : Nat
deriving DecidableEq, Repr

/-- `Cursor` of `src/zee-edit/src/lib.rs`. -/
structure Cursor where
  range : CRange
  selection : Option Nat
  visual_horizontal_offset : Option Nat
deriving DecidableEq, Repr

/-- `Cursor::new`. -/
def Cursor.new : Cursor := ⟨⟨0, 0⟩, none, none⟩

/-- `Cursor::with_range`. -/
def Cursor.with_range (r : CRange) : Cursor := ⟨r, none, none⟩

/-- `Cursor::selection()`: the normalised selection span. -/
def Cursor.selection_range (c : Cursor) : CRange :=
  match c.selection with
  | some s =>
    if c.range.start < s then ⟨c.range.start, s⟩
    else if s < c.range.start then ⟨s, c.range.start⟩
    else c.range
  | none => c.range

/-- Modelled from the spec: a single horizontal cursor move of the missing
`movement.rs` — grapheme-cluster-aware, clamped at the buffer edges; the
resulting range is the cluster starting at the new position. The selection
and the remembered visual column are left alone (the spec assigns the visual
column to the movement subsystem and says nothing else about it here). -/
def move_one (text : Text) (cursor : Cursor) (d : Direction) : Cursor :=
  match d with
  | .Backward =>
    let s := prev_grapheme_boundary text cursor.range.start
    { cursor with range := ⟨s, next_grapheme_boundary text s⟩ }
  | .Forward =>
    let s := next_grapheme_boundary text cursor.range.start
    { cursor with range := ⟨s, next_grapheme_boundary text s⟩ }

/-- Modelled from the spec: `movement::move_horizontally` of the missing
`movement.rs`, iterating `move_one` `count` times. -/
def move_horizontally (text : Text) (cursor : Cursor) (d : Direction) : Nat → Cursor
  | 0 => cursor
  | n + 1 => move_horizontally text (move_one text cursor d) d n

/-- Modelled from the spec: the Diff Record (`OpaqueDiff` of the missing
`diff.rs`), with the field order of `OpaqueDiff::new` as called from
`src/zee-edit/src/lib.rs`. -/
structure OpaqueDiff where
  byte_index : Nat
  old_byte_length : Nat
  new_byte_length : Nat
  char_index : Nat
  old_char_length : Nat
  new_char_length : Nat
deriving DecidableEq, Repr

/-- Modelled from the spec: the all-zero no-op diff. -/
def OpaqueDiff.empty : OpaqueDiff := ⟨0, 0, 0, 0, 0, 0⟩

/-- Modelled from the spec: the Delete Result (`DeleteOperation` of the missing
`diff.rs`), pairing a diff with the deleted text. -/
structure DeleteOperation where
  diff : OpaqueDiff
  deleted : Text
deriving DecidableEq, Repr

/-- Modelled from the spec: the no-op Delete Result. -/
def DeleteOperation.empty : DeleteOperation := ⟨OpaqueDiff.empty, []⟩

-- Editing operations. Each takes the buffer and the cursor and returns the
-- new buffer, the new cursor and the diff, mirroring `(&mut Rope, &mut self)`.

/-- `Cursor::insert_char`. -/
def insert_char (text : Text) (cursor : Cursor) (ch : Char) :
    Text × Cursor × OpaqueDiff :=
  let cursor := { cursor with selection := none }
  let text' := insert_at text cursor.range.start ch
  (text', cursor,
    ⟨char_to_byte text' cursor.range.start, 0, ch.utf8Size, cursor.range.start, 0, 1⟩)

/-- `Cursor::internal_insert_chars_at_index`: inserts the characters one by one
at `index + offset` and returns `(text, num_bytes, num_chars)`. -/
def internal_insert_chars_at_index : Text → Nat → List Char → Text × Nat × Nat
  | text, _, [] => (text, 0, 0)
  | text, index, ch :: rest =>
    let t1 := insert_at text index ch
    let r := internal_insert_chars_at_index t1 (index + 1) rest
    (r.1, ch.utf8Size + r.2.1, 1 + r.2.2)

/-- The `for line_idx in first_line_idx..=last_line_idx` loop of
`Cursor::prepend_selection`: inserts `cs` at the start of each of the `k`
lines beginning at `line`, accumulating `(bytes, chars)` inserted. -/
def prepend_lines (cs : List Char) : Text → Nat → Nat → Text × Nat × Nat
  | text, _, 0 => (text, 0, 0)
  | text, line, k + 1 =>
    let r1 := internal_insert_chars_at_index text (line_to_char text line) cs
    let r2 := prepend_lines cs r1.1 (line + 1) k
    (r2.1, r1.2.1 + r2.2.1, r1.2.2 + r2.2.2)

/-- `Cursor::prepend_selection`. `none` models the panics of the source:
the `- 1` underflow on `line_to_char(last_line_idx + 1)`, the underflow of
`old_byte_length`/`old_char_length` (guarded here on char indices, which is
equivalent since `char_to_byte` is strictly monotone), the division by
`last_line_idx - first_line_idx` when the selection is on a single line, and
the `num_chars - 1` / `quotient - 1` underflows. -/
def prepend_selection (text : Text) (cursor : Cursor) (cs : List Char) :
    Option (Text × Cursor × OpaqueDiff) :=
  let sel := cursor.selection_range
  let first_line_idx := char_to_line text sel.start
  let last_line_idx := char_to_line text sel.stop
  if line_to_char text (last_line_idx + 1) = 0 then none
  else
  let end_of_last_line_idx := line_to_char text (last_line_idx + 1) - 1
  if end_of_last_line_idx < line_to_char text first_line_idx then none
  else
  let old_byte_length :=
    char_to_byte text end_of_last_line_idx - char_to_byte text (line_to_char text first_line_idx)
  let old_char_length := end_of_last_line_idx - line_to_char text first_line_idx
  let r := prepend_lines cs text first_line_idx (last_line_idx - first_line_idx + 1)
  let text' := r.1
  let num_bytes := r.2.1
  let num_chars := r.2.2
  let cursorOpt : Option Cursor :=
    match cursor.selection with
    | none => some cursor
    | some selection =>
      if cursor.selection_range.stop = cursor.range.start then
        -- Forward selection direction
        if num_chars = 0 then none
        else if last_line_idx = first_line_idx then none
        else
          let c1 := move_horizontally text' cursor .Forward (num_chars - 1)
          some { c1 with
            selection := some (selection + num_chars / (last_line_idx - first_line_idx)) }
      else
        -- 'Backwards' selection direction
        if last_line_idx = first_line_idx then none
        else if num_chars / (last_line_idx - first_line_idx) = 0 then none
        else
          let c1 := move_horizontally text' cursor .Forward
            (num_chars / (last_line_idx - first_line_idx) - 1)
          some { c1 with selection := some (selection + num_chars) }
  cursorOpt.map fun cursor' => (text', cursor',
    ⟨char_to_byte text' (line_to_char text' first_line_idx),
      old_byte_length, old_byte_length + num_bytes,
      line_to_char text' first_line_idx,
      old_char_length, old_char_length + num_chars⟩)

/-- `Cursor::insert_chars_at_index`. -/
def insert_chars_at_index (text : Text) (cursor : Cursor) (index : Nat)
    (cs : List Char) : Option (Text × Cursor × OpaqueDiff) :=
  match cursor.selection with
  | some _ => prepend_selection text cursor cs
  | none =>
    let r := internal_insert_chars_at_index text index cs
    some (r.1, cursor,
      ⟨char_to_byte r.1 cursor.range.start, 0, r.2.1, index, 0, r.2.2⟩)

/-- `Cursor::insert_chars`. -/
def insert_chars (text : Text) (cursor : Cursor) (cs : List Char) :
    Option (Text × Cursor × OpaqueDiff) :=
  insert_chars_at_index text cursor cursor.range.start cs

/-- `Cursor::prepend_chars`. -/
def prepend_chars (text : Text) (cursor : Cursor) (cs : List Char) :
    Option (Text × Cursor × OpaqueDiff) :=
  insert_chars_at_index text cursor
    (line_to_char text (char_to_line text cursor.range.start)) cs

/-- `Cursor::length_of_leading_whitespace`. -/
def length_of_leading_whitespace (text : Text) (line_start : Nat) : Nat :=
  match get_char text line_start with
  | some c =>
    if c = '\t' then 1
    else
      match get_slice text line_start (line_start + TAB_WIDTH) with
      | some leading_chars => (leading_chars.takeWhile (fun c => c = ' ')).length
      | none => 0
  | none => 0

/-- `Cursor::delete_forward_from_index`. The `deleted` field is computed after
`text.remove`, exactly as in the source. -/
def delete_forward_from_index (text : Text) (cursor : Cursor)
    (index length : Nat) : Text × Cursor × DeleteOperation :=
  if text.length = 0 ∨ text.length = index ∨ length = 0 then
    (text, cursor, DeleteOperation.empty)
  else
    let byte_start := char_to_byte text index
    let byte_stop := char_to_byte text (index + length)
    let diff : OpaqueDiff := ⟨byte_start, byte_stop - byte_start, 0, index, length, 0⟩
    let text' := remove_range text index (index + length)
    let grapheme_start := index
    let grapheme_end := next_grapheme_boundary text' index
    let deleted := slice_range text' grapheme_start grapheme_end
    (text', Cursor.with_range ⟨grapheme_start, grapheme_end⟩, ⟨diff, deleted⟩)

/-- `Cursor::delete_forward`. -/
def delete_forward (text : Text) (cursor : Cursor) : Text × Cursor × DeleteOperation :=
  delete_forward_from_index text cursor cursor.range.start
    (cursor.range.stop - cursor.range.start)

/-- `Cursor::delete_backward`. -/
def delete_backward (text : Text) (cursor : Cursor) : Text × Cursor × DeleteOperation :=
  if 0 < cursor.range.start then
    delete_forward text (move_horizontally text cursor .Backward 1)
  else
    (text, cursor, DeleteOperation.empty)

/-- `Cursor::delete_line`. -/
def delete_line (text : Text) (cursor : Cursor) : Text × Cursor × DeleteOperation :=
  if text.length = 0 then (text, cursor, DeleteOperation.empty)
  else
    let line_index := char_to_line text cursor.range.start
    let delete_range_start := line_to_char text line_index
    let delete_range_stop := line_to_char text (line_index + 1)
    let deleted := slice_range text delete_range_start delete_range_stop
    let diff : OpaqueDiff :=
      ⟨char_to_byte text delete_range_start,
        char_to_byte text delete_range_stop - char_to_byte text delete_range_start, 0,
        delete_range_start, delete_range_stop - delete_range_start, 0⟩
    let text' := remove_range text delete_range_start delete_range_stop
    let grapheme_start := line_to_char text' (min line_index (len_lines text' - 2))
    let grapheme_end := next_grapheme_boundary text' grapheme_start
    (text', Cursor.with_range ⟨grapheme_start, grapheme_end⟩, ⟨diff, deleted⟩)

/-- `Cursor::delete_selection`. -/
def delete_selection (text : Text) (cursor : Cursor) : Text × Cursor × DeleteOperation :=
  if text.length = 0 then (text, cursor, DeleteOperation.empty)
  else
    let sel := cursor.selection_range
    let deleted := slice_range text sel.start sel.stop
    let diff : OpaqueDiff :=
      ⟨char_to_byte text sel.start,
        char_to_byte text sel.stop - char_to_byte text sel.start, 0,
        sel.start, sel.stop - sel.start, 0⟩
    let text' := remove_range text sel.start sel.stop
    let grapheme_start :=
      min cursor.range.start (prev_grapheme_boundary text' text'.length)
    let grapheme_end := next_grapheme_boundary text' grapheme_start
    (text', Cursor.with_range ⟨grapheme_start, grapheme_end⟩, ⟨diff, deleted⟩)

/-- The `for line_idx in first_line_idx..=last_line_idx` loop of
`Cursor::unindent_selection`: strips each line's leading whitespace,
accumulating the total characters removed. -/
def unindent_lines : Text → Nat → Nat → Text × Nat
  | text, _, 0 => (text, 0)
  | text, line, k + 1 =>
    let char_idx := line_to_char text line
    let line_start := line_to_char text (char_to_line text char_idx)
    let length := length_of_leading_whitespace text line_start
    let t1 := remove_range text char_idx (char_idx + length)
    let r := unindent_lines t1 (line + 1) k
    (r.1, length + r.2)

/-- `Cursor::unindent_selection`. `none` models the panics of the source: the
`- 1` underflows on `line_to_char(last_line_idx + 1)` (before and after the
removals), the underflow of `initial_byte_length`/`initial_char_length` and of
the final byte range (guarded on char indices, equivalent by strict
monotonicity of `char_to_byte`), and the division by
`last_line_idx - first_line_idx` when the selection is on a single line. The
source's passing of a line index where `length_of_leading_whitespace` expects a
char index (the 'Backwards' branch) is reproduced as-is. -/
def unindent_selection (text : Text) (cursor : Cursor) :
    Option (Text × Cursor × DeleteOperation) :=
  let sel := cursor.selection_range
  let first_line_idx := char_to_line text sel.start
  let last_line_idx := char_to_line text sel.stop
  if line_to_char text (last_line_idx + 1) = 0 then none
  else
  let initial_grapheme_start := line_to_char text first_line_idx
  let initial_grapheme_end := line_to_char text (last_line_idx + 1) - 1
  if initial_grapheme_end < initial_grapheme_start then none
  else
  let initial_byte_length :=
    char_to_byte text initial_grapheme_end - char_to_byte text initial_grapheme_start
  let initial_char_length := initial_grapheme_end - initial_grapheme_start
  let r := unindent_lines text first_line_idx (last_line_idx - first_line_idx + 1)
  let text' := r.1
  let total_chars_removed := r.2
  if line_to_char text' (last_line_idx + 1) = 0 then none
  else
  let final_grapheme_start := line_to_char text' first_line_idx
  let final_grapheme_end := line_to_char text' (last_line_idx + 1) - 1
  if final_grapheme_end < final_grapheme_start then none
  else
  let deleted := slice_range text' final_grapheme_start final_grapheme_end
  let diff : OpaqueDiff :=
    ⟨char_to_byte text' final_grapheme_start, initial_byte_length,
      char_to_byte text' final_grapheme_end - char_to_byte text' final_grapheme_start,
      final_grapheme_start, initial_char_length,
      final_grapheme_end - final_grapheme_start⟩
  let cursorOpt : Option Cursor :=
    match cursor.selection with
    | none => some cursor
    | some selection =>
      if last_line_idx = first_line_idx then none
      else
        let head_move_count := total_chars_removed / (last_line_idx - first_line_idx)
        if cursor.selection_range.stop = cursor.range.start then
          -- Forward selection direction
          let cursor_char_idx := cursor.range.start
          let start_of_cursor_line :=
            line_to_char text' (char_to_line text' cursor.range.start)
          let move_distance :=
            min total_chars_removed (cursor_char_idx - start_of_cursor_line)
          let c1 := move_horizontally text' cursor .Backward move_distance
          if head_move_count ≤ selection then
            some { c1 with selection := some (selection - head_move_count) }
          else
            some c1
        else
          -- 'Backwards' selection direction
          let cursor_line_whitespace :=
            length_of_leading_whitespace text'
              (char_to_line text' cursor.selection_range.start)
          let c1 :=
            if head_move_count ≤ cursor_line_whitespace then
              move_horizontally text' cursor .Backward head_move_count
            else cursor
          if total_chars_removed ≤ selection then
            some { c1 with selection := some (selection - total_chars_removed) }
          else
            some c1
  cursorOpt.map fun cursor' => (text', cursor', (⟨diff, deleted⟩ : DeleteOperation))

/-- `Cursor::unindent`. -/
def unindent (text : Text) (cursor : Cursor) :
    Option (Text × Cursor × DeleteOperation) :=
  match cursor.selection with
  | some _ => unindent_selection text cursor
  | none =>
    let line_start := line_to_char text (char_to_line text cursor.range.start)
    let count := length_of_leading_whitespace text line_start
    some (delete_forward_from_index text cursor line_start count)

/-- `Cursor::reconcile`. Note the source's `modified_range` ends at
`max old_char_length new_char_length` (without adding `char_index`), and the
shift branch falls through into the final grapheme snap. -/
def reconcile (cursor : Cursor) (new_text : Text) (diff : OpaqueDiff) : Cursor :=
  let modified_start := diff.char_index
  let modified_stop := max diff.old_char_length diff.new_char_length
  if cursor.range.stop ≤ modified_start then cursor
  else
    let r1 : CRange :=
      if modified_stop ≤ cursor.range.start then
        if diff.new_char_length < diff.old_char_length then
          let length_change := diff.old_char_length - diff.new_char_length
          ⟨cursor.range.start - length_change, cursor.range.stop - length_change⟩
        else
          let length_change := diff.new_char_length - diff.old_char_length
          ⟨cursor.range.start + length_change, cursor.range.stop + length_change⟩
      else cursor.range
    let grapheme_start :=
      prev_grapheme_boundary new_text (min r1.stop new_text.length)
    let grapheme_end := next_grapheme_boundary new_text grapheme_start
    { cursor with range := ⟨grapheme_start, grapheme_end⟩ }

/-- `Cursor::sync`. -/
def sync (current_text new_text : Text) (cursor : Cursor) : Cursor :=
  let current_line := char_to_line current_text cursor.range.start
  let current_line_offset :=
    cursor.range.start - line_to_char current_text current_line
  let new_line := min current_line (len_lines new_text - 1)
  let new_line_offset := min current_line_offset (line_len new_text new_line - 1)
  let grapheme_end :=
    next_grapheme_boundary new_text (line_to_char new_text new_line + new_line_offset)
  let grapheme_start := prev_grapheme_boundary new_text grapheme_end
  Cursor.with_range ⟨grapheme_start, grapheme_end⟩

/-- The rule of claim C8 taken at its word: the intra-line offset clamped to
the new line's length (the source clamps to the length minus one). -/
def sync_per_spec (current_text new_text : Text) (cursor : Cursor) : Cursor :=
  let current_line := char_to_line current_text cursor.range.start
  let current_line_offset :=
    cursor.range.start - line_to_char current_text current_line
  let new_line := min current_line (len_lines new_text - 1)
  let new_line_offset := min current_line_offset (line_len new_text new_line)
  let grapheme_end :=
    next_grapheme_boundary new_text (line_to_char new_text new_line + new_line_offset)
  let grapheme_start := prev_grapheme_boundary new_text grapheme_end
  Cursor.with_range ⟨grapheme_start, grapheme_end⟩

-- The uniform editing-operation type of claims C1 and C2, covering the eight
-- editing operations; `apply_op` projects a deletion's result to its diff.

inductive EditOp where
  | insChar (ch : Char)
  | insChars (cs : List Char)
  | prepChars (cs : List Char)
  | unindentOp
  | delForward
  | delBackward
  | delLine
  | delSelection
deriving DecidableEq, Repr

def apply_op : EditOp → Text → Cursor → Option (Text × Cursor × OpaqueDiff)
  | .insChar ch, t, c => some (insert_char t c ch)
  | .insChars cs, t, c => insert_chars t c cs
  | .prepChars cs, t, c => prepend_chars t c cs
  | .unindentOp, t, c => (unindent t c).map (fun r => (r.1, r.2.1, r.2.2.diff))
  | .delForward, t, c =>
    let r := delete_forward t c
    some (r.1, r.2.1, r.2.2.diff)
  | .delBackward, t, c =>
    let r := delete_backward t c
    some (r.1, r.2.1, r.2.2.diff)
  | .delLine, t, c =>
    let r := delete_line t c
    some (r.1, r.2.1, r.2.2.diff)
  | .delSelection, t, c =>
    let r := delete_selection t c
    some (r.1, r.2.1, r.2.2.diff)

/-- One step of the editing/reconciliation system of claim C1: an editing
operation on the buffer, a `reconcile` against a diff for the new buffer
(any diff whose `char_index` lies inside the new buffer — every diff produced
by an edit of the same buffer satisfies this, so this over-approximates the
coherent diffs), or a `sync` to an arbitrary replacement buffer. -/
inductive Step : Text × Cursor → Text × Cursor → Prop where
  | edit (op : EditOp) (t : Text) (c : Cursor) (t' : Text) (c' : Cursor)
      (d : OpaqueDiff) : apply_op op t c = some (t', c', d) → Step (t, c) (t', c')
  | recon (t : Text) (c : Cursor) (t' : Text) (d : OpaqueDiff) :
      d.char_index ≤ t'.length → Step (t, c) (t', reconcile c t' d)
  | syncStep (t : Text) (c : Cursor) (t' : Text) : Step (t, c) (t', sync t t' c)

/-- The cursor-in-buffer well-formedness used as a hypothesis by several
claims: the range is ordered and inside the buffer, and the selection anchor
(when present) is inside the buffer. -/
def WfCursor (t : Text) (c : Cursor) : Prop :=
  c.range.start ≤ c.range.stop ∧ c.range.stop ≤ t.length ∧
    (∀ s, c.selection = some s → s ≤ t.length)

-- File watcher (`src/zee/src/watcher.rs`). Paths are modelled as component
-- lists (so `Path::starts_with` is component-wise prefix), tokens as `Nat`
-- (`WatchToken` wraps a `BufferId`). The `filter` closure of a `Watchee` is
-- not modelled: `unwatch`, the subject of claim C10, never reads it.

structure Watchee where
  path : List String
  recursive : Bool
  token : Nat
deriving DecidableEq, Repr

/-- The watcher state: the registered watchees, plus the set of paths the
underlying `notify` watcher currently watches (the effect of
`self.inner.watch` / `self.inner.unwatch`). -/
structure WatcherState where
  watchees : List Watchee
  inner : List (List String)
deriving DecidableEq, Repr

/-- `Vec::remove` at the `position` of the first matching watchee: returns the
removed element and the remaining list, or `none` when nothing matches. -/
def remove_first (p : List String) (tok : Nat) :
    List Watchee → Option (Watchee × List Watchee)
  | [] => none
  | w :: ws =>
    if w.token = tok ∧ w.path = p then some (w, ws)
    else (remove_first p tok ws).map (fun r => (r.1, w :: r.2))

/-- `FileWatcher::unwatch`. -/
def unwatch (s : WatcherState) (p : List String) (tok : Nat) : WatcherState :=
  match remove_first p tok s.watchees with
  | none => s
  | some (removed, rest) =>
    let inner1 :=
      if rest.any (fun w => w.path == removed.path) then s.inner
      else s.inner.filter (fun q => !(q == removed.path))
    let inner2 :=
      if removed.recursive then
        (rest.filter (fun w => removed.path.isPrefixOf w.path)).foldl
          (fun acc w => w.path :: acc) inner1
      else inner1
    { watchees := rest, inner := inner2 }

end Zee

namespace Zee

-- ## Basic list facts

theorem insert_at_length (t : Text) (i : Nat) (c : Char) :
    (insert_at t i c).length = t.length + 1 := by
  simp [insert_at]
  omega

theorem remove_range_length (t : Text) (a b : Nat) (hab : a ≤ b)
    (hb : b ≤ t.length) : (remove_range t a b).length + (b - a) = t.length := by
  simp [remove_range]
  omega

theorem remove_range_self (t : Text) (a : Nat) : remove_range t a a = t := by
  simp [remove_range]

theorem takeWhile_length_le (p : Char → Bool) :
    ∀ l : List Char, (l.takeWhile p).length ≤ l.length := by
  intro l
  induction l with
  | nil => simp
  | cons a l ih =>
    by_cases h : p a <;> simp [List.takeWhile_cons, h] <;> omega

theorem takeWhile_stop (p : Char → Bool) (d : Char) :
    ∀ l : List Char, (l.takeWhile p).length < l.length →
      p (l.getD (l.takeWhile p).length d) = false := by
  intro l
  induction l with
  | nil => simp
  | cons a l ih =>
    intro h
    by_cases hp : p a
    · simp only [List.takeWhile_cons, hp] at h ⊢
      simpa using ih (by simpa using h)
    · simp only [List.takeWhile_cons, hp] at h ⊢
      simpa using hp

theorem getD_lt (t : Text) (i : Nat) (d : Char) (h : i < t.length) :
    t.getD i d = t[i] := by
  rw [List.getD_eq_getElem?_getD, List.getElem?_eq_getElem h]
  rfl

-- ## Grapheme boundary bounds

theorem next_gb_le (t : Text) (i : Nat) : next_grapheme_boundary t i ≤ t.length := by
  unfold next_grapheme_boundary
  split
  · exact le_refl _
  · rename_i h
    have h1 := takeWhile_length_le combining (t.drop (i + 1))
    simp only [List.length_drop] at h1
    omega

theorem next_gb_ge (t : Text) (i : Nat) (h : i ≤ t.length) :
    i ≤ next_grapheme_boundary t i := by
  unfold next_grapheme_boundary
  split <;> omega

theorem prev_gb_le (t : Text) (i : Nat) :
    prev_grapheme_boundary t i ≤ min i t.length := by
  unfold prev_grapheme_boundary
  omega

theorem prev_gb_le_len (t : Text) (i : Nat) :
    prev_grapheme_boundary t i ≤ t.length := by
  have := prev_gb_le t i
  omega

theorem prev_gb_le_self (t : Text) (i : Nat) :
    prev_grapheme_boundary t i ≤ i := by
  have := prev_gb_le t i
  omega

theorem is_boundary_next_gb (t : Text) (i : Nat) :
    is_boundary t (next_grapheme_boundary t i) = true := by
  unfold next_grapheme_boundary
  split
  · simp [is_boundary]
  · rename_i h
    set cc := ((t.drop (i + 1)).takeWhile combining).length with hcc
    by_cases hend : t.length ≤ i + 1 + cc
    · simp [is_boundary, hend]
    · have hlt : cc < (t.drop (i + 1)).length := by
        simp only [List.length_drop]; omega
      have hstop := takeWhile_stop combining ' ' (t.drop (i + 1)) hlt
      rw [getD_lt _ _ _ hlt, List.getElem_drop] at hstop
      have hb2 : i + 1 + cc < t.length := by omega
      have hg := getD_lt t (i + 1 + cc) ' ' hb2
      simp only [is_boundary, hg]
      simp [hstop]

theorem is_boundary_prev_gb (t : Text) (i : Nat) :
    is_boundary t (prev_grapheme_boundary t i) = true := by
  by_cases hz : prev_grapheme_boundary t i = 0
  · simp [is_boundary, hz]
  · have hform :
        prev_grapheme_boundary t i =
          min i t.length - 1 -
            ((t.take (min i t.length)).reverse.takeWhile combining).length := rfl
    have hmlen : (t.take (min i t.length)).length = min i t.length := by
      simp only [List.length_take]; omega
    have hcclt :
        ((t.take (min i t.length)).reverse.takeWhile combining).length <
          (t.take (min i t.length)).reverse.length := by
      simp only [List.length_reverse, hmlen]
      omega
    have hstop := takeWhile_stop combining ' ' (t.take (min i t.length)).reverse hcclt
    rw [getD_lt _ _ _ hcclt, List.getElem_reverse, List.getElem_take] at hstop
    have hlt : prev_grapheme_boundary t i < t.length := by
      rw [hform]
      omega
    have hb1 :
        (t.take (min i t.length)).length - 1 -
            ((t.take (min i t.length)).reverse.takeWhile combining).length <
          t.length := by
      rw [hmlen]
      omega
    have hstop' :
        combining
          (t.getD
            ((t.take (min i t.length)).length - 1 -
              ((t.take (min i t.length)).reverse.takeWhile combining).length) ' ') =
          false := by
      rw [getD_lt _ _ _ hb1]
      exact hstop
    rw [hmlen] at hstop'
    have hstop2 : combining (t.getD (prev_grapheme_boundary t i) ' ') = false := hstop'
    have h1 : ¬ (t.length ≤ prev_grapheme_boundary t i) := by omega
    have hstop3 : combining (t[prev_grapheme_boundary t i]?.getD ' ') = false := by
      rw [← List.getD_eq_getElem?_getD]
      exact hstop2
    simp [is_boundary, hz, h1, hstop3]

-- ## Movement preserves well-formedness

/-- The numeric part of the cursor invariant: an ordered range inside the
buffer. -/
def ValidRange (t : Text) (c : Cursor) : Prop :=
  c.range.start ≤ c.range.stop ∧ c.range.stop ≤ t.length

theorem move_one_valid (t : Text) (c : Cursor) (d : Direction) :
    ValidRange t (move_one t c d) := by
  cases d <;>
    simp only [move_one, ValidRange] <;>
    constructor
  · exact next_gb_ge t _ (next_gb_le t _)
  · exact next_gb_le t _
  · exact next_gb_ge t _ (prev_gb_le_len t _)
  · exact next_gb_le t _

theorem move_one_fields (t : Text) (c : Cursor) (d : Direction) :
    (move_one t c d).selection = c.selection ∧
      (move_one t c d).visual_horizontal_offset = c.visual_horizontal_offset := by
  cases d <;> simp [move_one]

theorem move_horizontally_fields (t : Text) (c : Cursor) (d : Direction) (n : Nat) :
    (move_horizontally t c d n).selection = c.selection ∧
      (move_horizontally t c d n).visual_horizontal_offset =
        c.visual_horizontal_offset := by
  induction n generalizing c with
  | zero => simp [move_horizontally]
  | succ n ih =>
    simp only [move_horizontally]
    rcases ih (move_one t c d) with ⟨h1, h2⟩
    rcases move_one_fields t c d with ⟨h3, h4⟩
    exact ⟨h1.trans h3, h2.trans h4⟩

theorem move_horizontally_valid (t : Text) (c : Cursor) (d : Direction) (n : Nat)
    (h : ValidRange t c) : ValidRange t (move_horizontally t c d n) := by
  induction n generalizing c with
  | zero => simpa [move_horizontally]
  | succ n ih =>
    simp only [move_horizontally]
    exact ih _ (move_one_valid t c d)

end Zee

namespace Zee

-- ## Newline counting and line arithmetic

theorem count_newlines_nil : count_newlines [] = 0 := rfl

theorem count_newlines_cons (c : Char) (t : Text) :
    count_newlines (c :: t) = (if c = '\n' then 1 else 0) + count_newlines t := by
  by_cases h : c = '\n'
  all_goals simp [count_newlines, List.filter_cons, h]
  all_goals omega

theorem count_newlines_append (xs ys : Text) :
    count_newlines (xs ++ ys) = count_newlines xs + count_newlines ys := by
  simp [count_newlines, List.filter_append]

theorem char_to_line_le_newlines (t : Text) (i : Nat) :
    char_to_line t i ≤ count_newlines t := by
  have h : count_newlines t = count_newlines (t.take i) + count_newlines (t.drop i) := by
    rw [← count_newlines_append, List.take_append_drop]
  unfold char_to_line
  omega

theorem char_to_line_mono (t : Text) {i j : Nat} (h : i ≤ j) :
    char_to_line t i ≤ char_to_line t j := by
  unfold char_to_line
  have heq : t.take i = (t.take j).take i := by
    rw [List.take_take, Nat.min_eq_left h]
  rw [heq]
  have := char_to_line_le_newlines (t.take j) i
  simpa [char_to_line] using this

theorem line_to_char_le (t : Text) : ∀ j, line_to_char t j ≤ t.length := by
  induction t with
  | nil =>
    intro j
    cases j with
    | zero => simp [line_to_char]
    | succ j => simp [line_to_char]
  | cons c t ih =>
    intro j
    cases j with
    | zero => simp [line_to_char]
    | succ j =>
      simp only [line_to_char, List.length_cons]
      split
      · have := ih j; omega
      · have := ih (j + 1); omega

theorem line_to_char_mono (t : Text) :
    ∀ {i j : Nat}, i ≤ j → line_to_char t i ≤ line_to_char t j := by
  induction t with
  | nil =>
    intro i j _
    cases i with
    | zero =>
      cases j with
      | zero => exact le_refl _
      | succ j => exact Nat.zero_le _
    | succ i =>
      cases j with
      | zero => exact Nat.zero_le _
      | succ j => exact le_refl _
  | cons c t ih =>
    intro i j h
    cases i with
    | zero => exact Nat.zero_le _
    | succ i =>
      cases j with
      | zero => omega
      | succ j =>
        simp only [line_to_char]
        split
        · have := ih (Nat.succ_le_succ_iff.mp h)
          omega
        · have := ih h
          omega

theorem char_to_line_line_to_char (t : Text) :
    ∀ j, j ≤ count_newlines t → char_to_line t (line_to_char t j) = j := by
  induction t with
  | nil =>
    intro j hj
    rw [count_newlines_nil] at hj
    interval_cases j
    rfl
  | cons c t ih =>
    intro j hj
    cases j with
    | zero => rfl
    | succ j =>
      rw [count_newlines_cons] at hj
      by_cases h : c = '\n'
      · simp only [line_to_char, if_pos h]
        rw [char_to_line]
        have h1 : (1 : Nat) + line_to_char t j = line_to_char t j + 1 := by omega
        rw [h1, List.take_succ_cons, count_newlines_cons, if_pos h]
        have hj' : j ≤ count_newlines t := by
          rw [if_pos h] at hj; omega
        have := ih j hj'
        rw [char_to_line] at this
        omega
      · simp only [line_to_char, if_neg h]
        rw [char_to_line]
        have h1 : (1 : Nat) + line_to_char t (j + 1) = line_to_char t (j + 1) + 1 := by
          omega
        rw [h1, List.take_succ_cons, count_newlines_cons, if_neg h]
        have hj' : j + 1 ≤ count_newlines t := by
          rw [if_neg h] at hj; omega
        have := ih (j + 1) hj'
        rw [char_to_line] at this
        omega

theorem line_to_char_append (xs ys : Text) :
    ∀ j, line_to_char (xs ++ ys) j =
      if j ≤ count_newlines xs then line_to_char xs j
      else xs.length + line_to_char ys (j - count_newlines xs) := by
  induction xs with
  | nil =>
    intro j
    cases j with
    | zero => simp [line_to_char]
    | succ j => simp [line_to_char, count_newlines_nil]
  | cons c xs ih =>
    intro j
    cases j with
    | zero => simp [line_to_char]
    | succ j =>
      by_cases h : c = '\n'
      · simp only [List.cons_append, line_to_char, if_pos h, count_newlines_cons,
          List.length_cons, List.append_eq]
        rw [ih j]
        split_ifs with h1 h2 h2
        · rfl
        · omega
        · omega
        · have h3 : j + 1 - (1 + count_newlines xs) = j - count_newlines xs := by omega
          rw [h3]
          omega
      · simp only [List.cons_append, line_to_char, if_neg h, count_newlines_cons,
          List.length_cons, List.append_eq]
        rw [ih (j + 1)]
        split_ifs with h1 h2 h2
        · rfl
        · omega
        · omega
        · have h3 : j + 1 - (0 + count_newlines xs) = j + 1 - count_newlines xs := by
            omega
          rw [h3]
          omega

end Zee

namespace Zee

-- ## Insertion loop accounting

theorem internal_insert_spec (cs : List Char) :
    ∀ (t : Text) (i : Nat),
      (internal_insert_chars_at_index t i cs).1.length = t.length + cs.length ∧
        (internal_insert_chars_at_index t i cs).2.2 = cs.length := by
  induction cs with
  | nil => intro t i; simp [internal_insert_chars_at_index]
  | cons ch rest ih =>
    intro t i
    simp only [internal_insert_chars_at_index]
    rcases ih (insert_at t i ch) (i + 1) with ⟨h1, h2⟩
    refine ⟨?_, ?_⟩
    · rw [h1, insert_at_length]
      simp
      omega
    · rw [h2]
      simp
      omega

theorem prepend_lines_spec (cs : List Char) :
    ∀ (k : Nat) (t : Text) (line : Nat),
      (prepend_lines cs t line k).1.length = t.length + k * cs.length ∧
        (prepend_lines cs t line k).2.2 = k * cs.length := by
  intro k
  induction k with
  | zero => intro t line; simp [prepend_lines]
  | succ k ih =>
    intro t line
    simp only [prepend_lines]
    rcases internal_insert_spec cs t (line_to_char t line) with ⟨h1, h2⟩
    rcases ih (internal_insert_chars_at_index t (line_to_char t line) cs).1 (line + 1)
      with ⟨h3, h4⟩
    refine ⟨?_, ?_⟩
    · rw [h3, h1]
      ring
    · rw [h4, h2]
      ring

-- ## takeWhile elements satisfy the predicate

theorem takeWhile_sat (p : Char → Bool) (d : Char) :
    ∀ (l : List Char) (k : Nat), k < (l.takeWhile p).length → p (l.getD k d) = true := by
  intro l
  induction l with
  | nil => intro k h; simp at h
  | cons a l ih =>
    intro k h
    by_cases hp : p a
    · simp only [List.takeWhile_cons, if_pos hp, List.length_cons] at h
      cases k with
      | zero => simpa using hp
      | succ k =>
        rw [List.getD_cons_succ]
        exact ih k (by omega)
    · simp [List.takeWhile_cons, if_neg hp] at h

-- ## Removing a newline-free segment shifts later line starts

theorem remove_segment_lines (t : Text) (a L : Nat)
    (ha : a + L ≤ t.length)
    (hnl : count_newlines ((t.drop a).take L) = 0) :
    count_newlines (remove_range t a (a + L)) = count_newlines t ∧
      (∀ j, j ≤ char_to_line t a →
        line_to_char (remove_range t a (a + L)) j = line_to_char t j) ∧
      (∀ j, char_to_line t a < j →
        line_to_char (remove_range t a (a + L)) j + L = line_to_char t j) := by
  have hPa : (t.take a).length = a := by
    simp [List.length_take]
    omega
  have hSL : ((t.drop a).take L).length = L := by
    simp [List.length_take, List.length_drop]
    omega
  have hdd : (t.drop a).drop L = t.drop (a + L) := by
    rw [List.drop_drop]
  have hsplit : t.drop a = (t.drop a).take L ++ t.drop (a + L) := by
    rw [← hdd, List.take_append_drop]
  have hdecomp : t = t.take a ++ ((t.drop a).take L ++ t.drop (a + L)) := by
    rw [← hsplit, List.take_append_drop]
  have hrem : remove_range t a (a + L) = t.take a ++ t.drop (a + L) := rfl
  have hcta : char_to_line t a = count_newlines (t.take a) := rfl
  have hcnl_t :
      count_newlines t =
        count_newlines (t.take a) + count_newlines (t.drop (a + L)) := by
    conv_lhs => rw [hdecomp]
    rw [count_newlines_append, count_newlines_append, hnl]
    omega
  refine ⟨?_, ?_, ?_⟩
  · rw [hrem, count_newlines_append, hcnl_t]
  · intro j hj
    have hj' : j ≤ count_newlines (t.take a) := by omega
    rw [hrem, line_to_char_append, if_pos hj']
    conv_rhs => rw [hdecomp]
    rw [line_to_char_append, if_pos hj']
  · intro j hj
    have hj' : ¬ (j ≤ count_newlines (t.take a)) := by omega
    rw [hrem, line_to_char_append, if_neg hj']
    conv_rhs => rw [hdecomp]
    rw [line_to_char_append, if_neg hj', line_to_char_append]
    have h0 : ¬ (j - count_newlines (t.take a) ≤ count_newlines ((t.drop a).take L)) := by
      rw [hnl]
      omega
    rw [if_neg h0, hnl, hSL]
    simp only [Nat.sub_zero]
    omega

-- ## Leading whitespace: equations and bounds

theorem lw_eq_none (t : Text) (ls : Nat) (h : get_char t ls = none) :
    length_of_leading_whitespace t ls = 0 := by
  unfold length_of_leading_whitespace
  rw [h]

theorem lw_eq_tab (t : Text) (ls : Nat) (h : get_char t ls = some '\t') :
    length_of_leading_whitespace t ls = 1 := by
  unfold length_of_leading_whitespace
  rw [h]
  simp

theorem lw_eq_slice_none (t : Text) (ls : Nat) (c : Char) (h1 : get_char t ls = some c)
    (h2 : ¬ c = '\t') (h3 : get_slice t ls (ls + TAB_WIDTH) = none) :
    length_of_leading_whitespace t ls = 0 := by
  unfold length_of_leading_whitespace
  rw [h1]
  simp only [if_neg h2, h3]

theorem lw_eq_slice (t : Text) (ls : Nat) (c : Char) (h1 : get_char t ls = some c)
    (h2 : ¬ c = '\t') (leading : Text)
    (h3 : get_slice t ls (ls + TAB_WIDTH) = some leading) :
    length_of_leading_whitespace t ls =
      (leading.takeWhile (fun c => c = ' ')).length := by
  unfold length_of_leading_whitespace
  rw [h1]
  simp only [if_neg h2, h3]

theorem get_char_lt (t : Text) (i : Nat) (c : Char) (h : get_char t i = some c) :
    i < t.length := by
  by_contra hh
  unfold get_char at h
  rw [List.getElem?_eq_none_iff.mpr (by omega)] at h
  simp at h

theorem get_slice_bounds (t : Text) (a b : Nat) (s : Text)
    (h : get_slice t a b = some s) :
    a ≤ b ∧ b ≤ t.length ∧ s = slice_range t a b := by
  unfold get_slice at h
  split_ifs at h with hc
  exact ⟨hc.1, hc.2, (Option.some_inj.mp h).symm⟩

theorem lw_le (t : Text) (ls : Nat) :
    length_of_leading_whitespace t ls = 0 ∨
      ls + length_of_leading_whitespace t ls ≤ t.length := by
  cases hgc : get_char t ls with
  | none => exact Or.inl (lw_eq_none t ls hgc)
  | some c =>
    by_cases hc : c = '\t'
    · subst hc
      right
      rw [lw_eq_tab t ls hgc]
      have := get_char_lt t ls '\t' hgc
      omega
    · cases hgs : get_slice t ls (ls + TAB_WIDTH) with
      | none => exact Or.inl (lw_eq_slice_none t ls c hgc hc hgs)
      | some leading =>
        right
        rw [lw_eq_slice t ls c hgc hc leading hgs]
        obtain ⟨_, hb, hs⟩ := get_slice_bounds t ls (ls + TAB_WIDTH) leading hgs
        have hlen : leading.length ≤ TAB_WIDTH := by
          rw [hs]
          simp [slice_range, List.length_take]
        have := takeWhile_length_le (fun c => c = ' ') leading
        omega

theorem lw_no_newline (t : Text) (ls : Nat) :
    ∀ p, p < length_of_leading_whitespace t ls → t.getD (ls + p) ' ' ≠ '\n' := by
  intro p hp
  cases hgc : get_char t ls with
  | none => rw [lw_eq_none t ls hgc] at hp; omega
  | some c =>
    by_cases hc : c = '\t'
    · subst hc
      rw [lw_eq_tab t ls hgc] at hp
      have hp0 : p = 0 := by omega
      subst hp0
      have hlt := get_char_lt t ls '\t' hgc
      rw [Nat.add_zero, getD_lt t ls ' ' hlt]
      have hts : t[ls] = '\t' := by
        unfold get_char at hgc
        rw [List.getElem?_eq_getElem hlt] at hgc
        exact Option.some_inj.mp hgc
      rw [hts]
      decide
    · cases hgs : get_slice t ls (ls + TAB_WIDTH) with
      | none => rw [lw_eq_slice_none t ls c hgc hc hgs] at hp; omega
      | some leading =>
        rw [lw_eq_slice t ls c hgc hc leading hgs] at hp
        obtain ⟨_, hb, hs⟩ := get_slice_bounds t ls (ls + TAB_WIDTH) leading hgs
        have hple : p < leading.length :=
          lt_of_lt_of_le hp (takeWhile_length_le _ _)
        have hsat := takeWhile_sat (fun c => c = ' ') ' ' leading p hp
        rw [getD_lt leading p ' ' hple] at hsat
        have hsp : leading[p] = ' ' := by simpa using hsat
        have hlead : leading = (t.drop ls).take TAB_WIDTH := by
          rw [hs]
          simp [slice_range]
        have hbound : ls + p < t.length := by
          have : leading.length ≤ t.length - ls := by
            rw [hlead]
            simp [List.length_take, List.length_drop]
          omega
        have hpTW : p < TAB_WIDTH := by
          have hlle : leading.length ≤ TAB_WIDTH := by
            rw [hlead]; simp [List.length_take]
          omega
        have hpe : leading[p]? = t[ls + p]? := by
          rw [hlead, List.getElem?_take_of_lt hpTW, List.getElem?_drop]
        have hgd : t.getD (ls + p) ' ' = ' ' := by
          rw [List.getD_eq_getElem?_getD, ← hpe, ← List.getD_eq_getElem?_getD,
            getD_lt leading p ' ' hple, hsp]
        rw [hgd]
        decide

theorem count_newlines_seg_zero (t : Text) (a L : Nat)
    (hb : a + L ≤ t.length)
    (h : ∀ p, p < L → t.getD (a + p) ' ' ≠ '\n') :
    count_newlines ((t.drop a).take L) = 0 := by
  unfold count_newlines
  rw [List.length_eq_zero, List.filter_eq_nil_iff]
  intro c hc
  rw [List.mem_iff_getElem] at hc
  obtain ⟨n, hn, hcn⟩ := hc
  have hlen : n < L := by
    simp [List.length_take, List.length_drop] at hn
    omega
  have hbound : a + n < t.length := by omega
  have hcq : ((t.drop a).take L)[n]? = t[a + n]? := by
    rw [List.getElem?_take_of_lt hlen, List.getElem?_drop]
  have hcs : t[a + n]? = some c := by
    rw [← hcq, List.getElem?_eq_getElem hn, hcn]
  have hgd : t.getD (a + n) ' ' = c := by
    rw [List.getD_eq_getElem?_getD, hcs]
    rfl
  have hne := h n hlen
  rw [hgd] at hne
  simpa using hne

end Zee

namespace Zee

/-- Accounting for the `unindent_selection` removal loop: stripping leading
whitespace from `k` consecutive lines starting at `line` preserves the newline
count, removes exactly the reported total, leaves the starts of lines up to
`line` unchanged, and shifts the starts of lines from `line + k` on down by
the total. -/
theorem unindent_lines_spec :
    ∀ (k line : Nat) (t : Text), line + k ≤ count_newlines t + 1 →
      count_newlines (unindent_lines t line k).1 = count_newlines t ∧
        (unindent_lines t line k).1.length + (unindent_lines t line k).2 = t.length ∧
        (∀ j, j ≤ line →
          line_to_char (unindent_lines t line k).1 j = line_to_char t j) ∧
        (∀ j, line + k ≤ j →
          line_to_char (unindent_lines t line k).1 j + (unindent_lines t line k).2 =
            line_to_char t j) := by
  intro k
  induction k with
  | zero =>
    intro line t _
    simp [unindent_lines]
  | succ k ih =>
    intro line t h
    have hline : line ≤ count_newlines t := by omega
    have hR3 : char_to_line t (line_to_char t line) = line :=
      char_to_line_line_to_char t line hline
    have hls :
        line_to_char t (char_to_line t (line_to_char t line)) = line_to_char t line := by
      rw [hR3]
    have hstep : unindent_lines t line (k + 1) =
        ((unindent_lines
            (remove_range t (line_to_char t line)
              (line_to_char t line + length_of_leading_whitespace t (line_to_char t line)))
            (line + 1) k).1,
          length_of_leading_whitespace t (line_to_char t line) +
            (unindent_lines
              (remove_range t (line_to_char t line)
                (line_to_char t line +
                  length_of_leading_whitespace t (line_to_char t line)))
              (line + 1) k).2) := by
      simp only [unindent_lines]
      rw [hls]
    rw [hstep]
    dsimp only
    have hciL : line_to_char t line ≤ t.length := line_to_char_le t line
    have haL :
        line_to_char t line + length_of_leading_whitespace t (line_to_char t line) ≤
          t.length := by
      rcases lw_le t (line_to_char t line) with h0 | h0
      · omega
      · omega
    have hnl := count_newlines_seg_zero t (line_to_char t line)
      (length_of_leading_whitespace t (line_to_char t line)) haL
      (lw_no_newline t (line_to_char t line))
    obtain ⟨hr1, hr2, hr3⟩ := remove_segment_lines t (line_to_char t line)
      (length_of_leading_whitespace t (line_to_char t line)) haL hnl
    have hrl := remove_range_length t (line_to_char t line)
      (line_to_char t line + length_of_leading_whitespace t (line_to_char t line))
      (by omega) haL
    have hih := ih (line + 1)
      (remove_range t (line_to_char t line)
        (line_to_char t line + length_of_leading_whitespace t (line_to_char t line)))
      (by rw [hr1]; omega)
    obtain ⟨ha1, ha2, ha3, ha4⟩ := hih
    refine ⟨?_, ?_, ?_, ?_⟩
    · rw [ha1, hr1]
    · omega
    · intro j hj
      rw [ha3 j (by omega), hr2 j (by rw [hR3]; omega)]
    · intro j hj
      have h4a := ha4 j (by omega)
      have h4b := hr3 j (by rw [hR3]; omega)
      omega

end Zee

namespace Zee

-- ## Cursor invariant preservation, operation by operation

/-- The reachable-state invariant for claim C1: starting from `Cursor::new`,
the editing and reconciliation operations keep the selection absent and the
range ordered and inside the buffer. -/
def Inv (s : Text × Cursor) : Prop :=
  s.2.selection = none ∧ s.2.range.start ≤ s.2.range.stop ∧
    s.2.range.stop ≤ s.1.length

theorem dffi_inv (t : Text) (c : Cursor) (index len : Nat)
    (hidx : index + len ≤ t.length) (hc : c.selection = none)
    (h1 : c.range.start ≤ c.range.stop) (h2 : c.range.stop ≤ t.length) :
    (delete_forward_from_index t c index len).2.1.selection = none ∧
      (delete_forward_from_index t c index len).2.1.range.start ≤
        (delete_forward_from_index t c index len).2.1.range.stop ∧
      (delete_forward_from_index t c index len).2.1.range.stop ≤
        (delete_forward_from_index t c index len).1.length := by
  by_cases hcond : t.length = 0 ∨ t.length = index ∨ len = 0
  · have heq : delete_forward_from_index t c index len = (t, c, DeleteOperation.empty) := by
      unfold delete_forward_from_index
      rw [if_pos hcond]
    rw [heq]
    exact ⟨hc, h1, h2⟩
  · have heq1 : (delete_forward_from_index t c index len).1 =
        remove_range t index (index + len) := by
      unfold delete_forward_from_index
      rw [if_neg hcond]
    have heq2 : (delete_forward_from_index t c index len).2.1 =
        Cursor.with_range ⟨index,
          next_grapheme_boundary (remove_range t index (index + len)) index⟩ := by
      unfold delete_forward_from_index
      rw [if_neg hcond]
    have hrem := remove_range_length t index (index + len) (by omega) hidx
    rw [heq1, heq2]
    refine ⟨rfl, ?_, ?_⟩
    · exact next_gb_ge _ index (by simp [Cursor.with_range] at hrem ⊢; omega)
    · exact next_gb_le _ index

theorem delete_forward_inv (t : Text) (c : Cursor) (hc : c.selection = none)
    (h1 : c.range.start ≤ c.range.stop) (h2 : c.range.stop ≤ t.length) :
    (delete_forward t c).2.1.selection = none ∧
      (delete_forward t c).2.1.range.start ≤ (delete_forward t c).2.1.range.stop ∧
      (delete_forward t c).2.1.range.stop ≤ (delete_forward t c).1.length := by
  unfold delete_forward
  exact dffi_inv t c c.range.start (c.range.stop - c.range.start) (by omega) hc h1 h2

theorem delete_backward_inv (t : Text) (c : Cursor) (hc : c.selection = none)
    (h1 : c.range.start ≤ c.range.stop) (h2 : c.range.stop ≤ t.length) :
    (delete_backward t c).2.1.selection = none ∧
      (delete_backward t c).2.1.range.start ≤ (delete_backward t c).2.1.range.stop ∧
      (delete_backward t c).2.1.range.stop ≤ (delete_backward t c).1.length := by
  unfold delete_backward
  split
  · have hmv := move_horizontally_valid t c .Backward 1 ⟨h1, h2⟩
    have hmf := move_horizontally_fields t c .Backward 1
    exact delete_forward_inv t _ (hmf.1.trans hc) hmv.1 hmv.2
  · exact ⟨hc, h1, h2⟩

theorem delete_line_inv (t : Text) (c : Cursor) (hc : c.selection = none)
    (h1 : c.range.start ≤ c.range.stop) (h2 : c.range.stop ≤ t.length) :
    (delete_line t c).2.1.selection = none ∧
      (delete_line t c).2.1.range.start ≤ (delete_line t c).2.1.range.stop ∧
      (delete_line t c).2.1.range.stop ≤ (delete_line t c).1.length := by
  by_cases hcond : t.length = 0
  · have heq : delete_line t c = (t, c, DeleteOperation.empty) := by
      unfold delete_line
      rw [if_pos hcond]
    rw [heq]
    exact ⟨hc, h1, h2⟩
  · have heq1 : (delete_line t c).1 =
        remove_range t (line_to_char t (char_to_line t c.range.start))
          (line_to_char t (char_to_line t c.range.start + 1)) := by
      unfold delete_line
      rw [if_neg hcond]
    have heq2 : (delete_line t c).2.1 =
        Cursor.with_range
          ⟨line_to_char
              (remove_range t (line_to_char t (char_to_line t c.range.start))
                (line_to_char t (char_to_line t c.range.start + 1)))
              (min (char_to_line t c.range.start)
                (len_lines
                  (remove_range t (line_to_char t (char_to_line t c.range.start))
                    (line_to_char t (char_to_line t c.range.start + 1))) - 2)),
            next_grapheme_boundary
              (remove_range t (line_to_char t (char_to_line t c.range.start))
                (line_to_char t (char_to_line t c.range.start + 1)))
              (line_to_char
                (remove_range t (line_to_char t (char_to_line t c.range.start))
                  (line_to_char t (char_to_line t c.range.start + 1)))
                (min (char_to_line t c.range.start)
                  (len_lines
                    (remove_range t (line_to_char t (char_to_line t c.range.start))
                      (line_to_char t (char_to_line t c.range.start + 1))) - 2)))⟩ := by
      unfold delete_line
      rw [if_neg hcond]
    rw [heq1, heq2]
    refine ⟨rfl, ?_, ?_⟩
    · exact next_gb_ge _ _ (line_to_char_le _ _)
    · exact next_gb_le _ _

theorem delete_selection_inv (t : Text) (c : Cursor) (hc : c.selection = none)
    (h1 : c.range.start ≤ c.range.stop) (h2 : c.range.stop ≤ t.length) :
    (delete_selection t c).2.1.selection = none ∧
      (delete_selection t c).2.1.range.start ≤ (delete_selection t c).2.1.range.stop ∧
      (delete_selection t c).2.1.range.stop ≤ (delete_selection t c).1.length := by
  by_cases hcond : t.length = 0
  · have heq : delete_selection t c = (t, c, DeleteOperation.empty) := by
      unfold delete_selection
      rw [if_pos hcond]
    rw [heq]
    exact ⟨hc, h1, h2⟩
  · have heq1 : (delete_selection t c).1 =
        remove_range t c.selection_range.start c.selection_range.stop := by
      unfold delete_selection
      rw [if_neg hcond]
    have heq2 : (delete_selection t c).2.1 =
        Cursor.with_range
          ⟨min c.range.start
              (prev_grapheme_boundary
                (remove_range t c.selection_range.start c.selection_range.stop)
                (remove_range t c.selection_range.start c.selection_range.stop).length),
            next_grapheme_boundary
              (remove_range t c.selection_range.start c.selection_range.stop)
              (min c.range.start
                (prev_grapheme_boundary
                  (remove_range t c.selection_range.start c.selection_range.stop)
                  (remove_range t c.selection_range.start c.selection_range.stop).length))⟩ := by
      unfold delete_selection
      rw [if_neg hcond]
    rw [heq1, heq2]
    refine ⟨rfl, ?_, ?_⟩
    · have hle : min c.range.start
          (prev_grapheme_boundary
            (remove_range t c.selection_range.start c.selection_range.stop)
            (remove_range t c.selection_range.start c.selection_range.stop).length) ≤
            (remove_range t c.selection_range.start c.selection_range.stop).length := by
        have := prev_gb_le_len
          (remove_range t c.selection_range.start c.selection_range.stop)
          (remove_range t c.selection_range.start c.selection_range.stop).length
        omega
      exact next_gb_ge _ _ hle
    · exact next_gb_le _ _

theorem unindent_none_inv (t : Text) (c : Cursor) (hc : c.selection = none)
    (h1 : c.range.start ≤ c.range.stop) (h2 : c.range.stop ≤ t.length) :
    ∀ t' c' r, unindent t c = some (t', c', r) →
      c'.selection = none ∧ c'.range.start ≤ c'.range.stop ∧
        c'.range.stop ≤ t'.length := by
  intro t' c' r h
  unfold unindent at h
  rw [hc] at h
  simp only [Option.some_inj] at h
  have hidx : line_to_char t (char_to_line t c.range.start) +
      length_of_leading_whitespace t (line_to_char t (char_to_line t c.range.start)) ≤
        t.length := by
    rcases lw_le t (line_to_char t (char_to_line t c.range.start)) with h0 | h0
    · have := line_to_char_le t (char_to_line t c.range.start)
      omega
    · exact h0
  have hmain := dffi_inv t c (line_to_char t (char_to_line t c.range.start))
    (length_of_leading_whitespace t (line_to_char t (char_to_line t c.range.start)))
    hidx hc h1 h2
  have hc' : c' = (delete_forward_from_index t c
      (line_to_char t (char_to_line t c.range.start))
      (length_of_leading_whitespace t (line_to_char t (char_to_line t c.range.start)))).2.1 := by
    rw [h]
  have ht' : t' = (delete_forward_from_index t c
      (line_to_char t (char_to_line t c.range.start))
      (length_of_leading_whitespace t (line_to_char t (char_to_line t c.range.start)))).1 := by
    rw [h]
  rw [hc', ht']
  exact hmain

end Zee

namespace Zee

theorem reconcile_inv (c : Cursor) (t' : Text) (d : OpaqueDiff)
    (hci : d.char_index ≤ t'.length) (h1 : c.range.start ≤ c.range.stop) :
    (reconcile c t' d).selection = c.selection ∧
      (reconcile c t' d).visual_horizontal_offset = c.visual_horizontal_offset ∧
      (reconcile c t' d).range.start ≤ (reconcile c t' d).range.stop ∧
      (reconcile c t' d).range.stop ≤ t'.length := by
  by_cases hcond : c.range.stop ≤ d.char_index
  · have heq : reconcile c t' d = c := by
      unfold reconcile
      rw [if_pos hcond]
    rw [heq]
    exact ⟨rfl, rfl, h1, le_trans hcond hci⟩
  · unfold reconcile
    rw [if_neg hcond]
    refine ⟨rfl, rfl, ?_, ?_⟩
    · exact next_gb_ge _ _ (prev_gb_le_len _ _)
    · exact next_gb_le _ _

theorem sync_inv (cur t' : Text) (c : Cursor) :
    (sync cur t' c).selection = none ∧
      (sync cur t' c).visual_horizontal_offset = none ∧
      (sync cur t' c).range.start ≤ (sync cur t' c).range.stop ∧
      (sync cur t' c).range.stop ≤ t'.length := by
  unfold sync
  refine ⟨rfl, rfl, ?_, ?_⟩
  · exact prev_gb_le_self _ _
  · exact next_gb_le _ _

theorem insert_chars_none (t : Text) (c : Cursor) (cs : List Char)
    (hc : c.selection = none) :
    insert_chars t c cs =
      some ((internal_insert_chars_at_index t c.range.start cs).1, c,
        ⟨char_to_byte (internal_insert_chars_at_index t c.range.start cs).1
            c.range.start, 0,
          (internal_insert_chars_at_index t c.range.start cs).2.1, c.range.start, 0,
          (internal_insert_chars_at_index t c.range.start cs).2.2⟩) := by
  unfold insert_chars insert_chars_at_index
  rw [hc]

theorem prepend_chars_none (t : Text) (c : Cursor) (cs : List Char)
    (hc : c.selection = none) :
    prepend_chars t c cs =
      some ((internal_insert_chars_at_index t
            (line_to_char t (char_to_line t c.range.start)) cs).1, c,
        ⟨char_to_byte (internal_insert_chars_at_index t
              (line_to_char t (char_to_line t c.range.start)) cs).1 c.range.start, 0,
          (internal_insert_chars_at_index t
            (line_to_char t (char_to_line t c.range.start)) cs).2.1,
          line_to_char t (char_to_line t c.range.start), 0,
          (internal_insert_chars_at_index t
            (line_to_char t (char_to_line t c.range.start)) cs).2.2⟩) := by
  unfold prepend_chars insert_chars_at_index
  rw [hc]

theorem unindent_none (t : Text) (c : Cursor) (hc : c.selection = none) :
    unindent t c = some (delete_forward_from_index t c
      (line_to_char t (char_to_line t c.range.start))
      (length_of_leading_whitespace t
        (line_to_char t (char_to_line t c.range.start)))) := by
  unfold unindent
  rw [hc]

theorem apply_op_inv (op : EditOp) (t : Text) (c : Cursor) (t' : Text) (c' : Cursor)
    (d : OpaqueDiff) (happ : apply_op op t c = some (t', c', d)) (hinv : Inv (t, c)) :
    Inv (t', c') := by
  simp only [Inv] at hinv ⊢
  obtain ⟨hc, h1, h2⟩ := hinv
  cases op with
  | insChar ch =>
    simp only [apply_op, Option.some_inj] at happ
    have ht : (insert_char t c ch).1 = t' := congrArg Prod.fst happ
    have hcc : (insert_char t c ch).2.1 = c' := congrArg (fun p => p.2.1) happ
    refine ⟨?_, ?_, ?_⟩
    · rw [← hcc]; rfl
    · rw [← hcc]; exact h1
    · rw [← hcc, ← ht]
      show c.range.stop ≤ (insert_at t c.range.start ch).length
      rw [insert_at_length]
      omega
  | insChars cs =>
    simp only [apply_op] at happ
    rw [insert_chars_none t c cs hc, Option.some_inj] at happ
    have ht : (internal_insert_chars_at_index t c.range.start cs).1 = t' :=
      congrArg Prod.fst happ
    have hcc : c = c' := congrArg (fun p => p.2.1) happ
    obtain ⟨hl, _⟩ := internal_insert_spec cs t c.range.start
    refine ⟨?_, ?_, ?_⟩
    · rw [← hcc]; exact hc
    · rw [← hcc]; exact h1
    · rw [← hcc, ← ht, hl]
      omega
  | prepChars cs =>
    simp only [apply_op] at happ
    rw [prepend_chars_none t c cs hc, Option.some_inj] at happ
    have ht : (internal_insert_chars_at_index t
        (line_to_char t (char_to_line t c.range.start)) cs).1 = t' :=
      congrArg Prod.fst happ
    have hcc : c = c' := congrArg (fun p => p.2.1) happ
    obtain ⟨hl, _⟩ := internal_insert_spec cs t
      (line_to_char t (char_to_line t c.range.start))
    refine ⟨?_, ?_, ?_⟩
    · rw [← hcc]; exact hc
    · rw [← hcc]; exact h1
    · rw [← hcc, ← ht, hl]
      omega
  | unindentOp =>
    simp only [apply_op] at happ
    rw [Option.map_eq_some'] at happ
    obtain ⟨⟨ta, ca, ra⟩, ha, hfa⟩ := happ
    obtain ⟨i1, i2, i3⟩ := unindent_none_inv t c hc h1 h2 ta ca ra ha
    have ht : ta = t' := congrArg Prod.fst hfa
    have hcc : ca = c' := congrArg (fun p => p.2.1) hfa
    refine ⟨?_, ?_, ?_⟩
    · rw [← hcc]; exact i1
    · rw [← hcc]; exact i2
    · rw [← hcc, ← ht]; exact i3
  | delForward =>
    simp only [apply_op, Option.some_inj] at happ
    have ht : (delete_forward t c).1 = t' := congrArg Prod.fst happ
    have hcc : (delete_forward t c).2.1 = c' := congrArg (fun p => p.2.1) happ
    obtain ⟨i1, i2, i3⟩ := delete_forward_inv t c hc h1 h2
    exact ⟨hcc ▸ i1, hcc ▸ i2, ht ▸ hcc ▸ i3⟩
  | delBackward =>
    simp only [apply_op, Option.some_inj] at happ
    have ht : (delete_backward t c).1 = t' := congrArg Prod.fst happ
    have hcc : (delete_backward t c).2.1 = c' := congrArg (fun p => p.2.1) happ
    obtain ⟨i1, i2, i3⟩ := delete_backward_inv t c hc h1 h2
    exact ⟨hcc ▸ i1, hcc ▸ i2, ht ▸ hcc ▸ i3⟩
  | delLine =>
    simp only [apply_op, Option.some_inj] at happ
    have ht : (delete_line t c).1 = t' := congrArg Prod.fst happ
    have hcc : (delete_line t c).2.1 = c' := congrArg (fun p => p.2.1) happ
    obtain ⟨i1, i2, i3⟩ := delete_line_inv t c hc h1 h2
    exact ⟨hcc ▸ i1, hcc ▸ i2, ht ▸ hcc ▸ i3⟩
  | delSelection =>
    simp only [apply_op, Option.some_inj] at happ
    have ht : (delete_selection t c).1 = t' := congrArg Prod.fst happ
    have hcc : (delete_selection t c).2.1 = c' := congrArg (fun p => p.2.1) happ
    obtain ⟨i1, i2, i3⟩ := delete_selection_inv t c hc h1 h2
    exact ⟨hcc ▸ i1, hcc ▸ i2, ht ▸ hcc ▸ i3⟩

theorem step_inv (s s' : Text × Cursor) (h : Step s s') (hinv : Inv s) : Inv s' := by
  cases h with
  | edit op t c t' c' d happ => exact apply_op_inv op t c t' c' d happ hinv
  | recon t c t' d hci =>
    obtain ⟨hc, h1, h2⟩ := hinv
    obtain ⟨hs, _, hr1, hr2⟩ := reconcile_inv c t' d hci h1
    exact ⟨hs.trans hc, hr1, hr2⟩
  | syncStep t c t' =>
    obtain ⟨hs, _, hr1, hr2⟩ := sync_inv t t' c
    exact ⟨hs, hr1, hr2⟩

theorem steps_inv (s s' : Text × Cursor) (h : Relation.ReflTransGen Step s s')
    (hinv : Inv s) : Inv s' := by
  induction h with
  | refl => exact hinv
  | tail _ h2 ih => exact step_inv _ _ h2 ih

end Zee

namespace Zee

-- ## Diff char-length accounting (claim C2)

theorem selection_range_wf (t : Text) (c : Cursor) (hwf : WfCursor t c) :
    c.selection_range.start ≤ c.selection_range.stop ∧
      c.selection_range.stop ≤ t.length := by
  obtain ⟨h1, h2, h3⟩ := hwf
  unfold Cursor.selection_range
  cases hsel : c.selection with
  | none => exact ⟨h1, h2⟩
  | some s =>
    have hs := h3 s hsel
    dsimp only
    split_ifs with ha hb
    all_goals refine ⟨?_, ?_⟩
    all_goals dsimp only
    all_goals omega

theorem dffi_delta (t : Text) (c : Cursor) (index len : Nat)
    (hidx : index + len ≤ t.length) :
    ((delete_forward_from_index t c index len).2.2.diff.new_char_length : Int) -
        (delete_forward_from_index t c index len).2.2.diff.old_char_length =
      ((delete_forward_from_index t c index len).1.length : Int) - t.length := by
  by_cases hcond : t.length = 0 ∨ t.length = index ∨ len = 0
  · have heq : delete_forward_from_index t c index len =
        (t, c, DeleteOperation.empty) := by
      unfold delete_forward_from_index
      rw [if_pos hcond]
    rw [heq]
    simp [DeleteOperation.empty, OpaqueDiff.empty]
  · have heq1 : (delete_forward_from_index t c index len).1 =
        remove_range t index (index + len) := by
      unfold delete_forward_from_index
      rw [if_neg hcond]
    have heq2 : (delete_forward_from_index t c index len).2.2.diff =
        ⟨char_to_byte t index, char_to_byte t (index + len) - char_to_byte t index, 0,
          index, len, 0⟩ := by
      unfold delete_forward_from_index
      rw [if_neg hcond]
    rw [heq1, heq2]
    have hrem := remove_range_length t index (index + len) (by omega) hidx
    dsimp only
    omega

theorem prepend_selection_delta (t : Text) (c : Cursor) (cs : List Char)
    (t' : Text) (c' : Cursor) (d : OpaqueDiff)
    (h : prepend_selection t c cs = some (t', c', d)) :
    (d.new_char_length : Int) - d.old_char_length = (t'.length : Int) - t.length := by
  simp only [prepend_selection] at h
  by_cases g1 : line_to_char t (char_to_line t c.selection_range.stop + 1) = 0
  · rw [if_pos g1] at h
    simp at h
  rw [if_neg g1] at h
  by_cases g2 : line_to_char t (char_to_line t c.selection_range.stop + 1) - 1 <
      line_to_char t (char_to_line t c.selection_range.start)
  · rw [if_pos g2] at h
    simp at h
  rw [if_neg g2] at h
  rw [Option.map_eq_some'] at h
  obtain ⟨a, _, hfa⟩ := h
  have ht : (prepend_lines cs t (char_to_line t c.selection_range.start)
      (char_to_line t c.selection_range.stop -
        char_to_line t c.selection_range.start + 1)).1 = t' :=
    congrArg Prod.fst hfa
  have hd := congrArg (fun p : Text × Cursor × OpaqueDiff => p.2.2) hfa
  dsimp only at hd
  obtain ⟨hl, hn⟩ := prepend_lines_spec cs
    (char_to_line t c.selection_range.stop -
      char_to_line t c.selection_range.start + 1) t
    (char_to_line t c.selection_range.start)
  rw [← ht, ← hd]
  dsimp only
  omega

theorem unindent_selection_delta (t : Text) (c : Cursor) (t' : Text) (c' : Cursor)
    (r : DeleteOperation)
    (hsel : c.selection_range.start ≤ c.selection_range.stop)
    (h : unindent_selection t c = some (t', c', r)) :
    (r.diff.new_char_length : Int) - r.diff.old_char_length =
      (t'.length : Int) - t.length := by
  simp only [unindent_selection] at h
  by_cases g1 : line_to_char t (char_to_line t c.selection_range.stop + 1) = 0
  · rw [if_pos g1] at h
    simp at h
  rw [if_neg g1] at h
  by_cases g2 : line_to_char t (char_to_line t c.selection_range.stop + 1) - 1 <
      line_to_char t (char_to_line t c.selection_range.start)
  · rw [if_pos g2] at h
    simp at h
  rw [if_neg g2] at h
  by_cases g3 : line_to_char
      (unindent_lines t (char_to_line t c.selection_range.start)
        (char_to_line t c.selection_range.stop -
          char_to_line t c.selection_range.start + 1)).1
      (char_to_line t c.selection_range.stop + 1) = 0
  · rw [if_pos g3] at h
    simp at h
  rw [if_neg g3] at h
  by_cases g4 : line_to_char
      (unindent_lines t (char_to_line t c.selection_range.start)
        (char_to_line t c.selection_range.stop -
          char_to_line t c.selection_range.start + 1)).1
      (char_to_line t c.selection_range.stop + 1) - 1 <
      line_to_char
        (unindent_lines t (char_to_line t c.selection_range.start)
          (char_to_line t c.selection_range.stop -
            char_to_line t c.selection_range.start + 1)).1
        (char_to_line t c.selection_range.start)
  · rw [if_pos g4] at h
    simp at h
  rw [if_neg g4] at h
  rw [Option.map_eq_some'] at h
  obtain ⟨a, _, hfa⟩ := h
  have ht : (unindent_lines t (char_to_line t c.selection_range.start)
      (char_to_line t c.selection_range.stop -
        char_to_line t c.selection_range.start + 1)).1 = t' :=
    congrArg Prod.fst hfa
  have hd := congrArg (fun p : Text × Cursor × DeleteOperation => p.2.2) hfa
  dsimp only at hd
  have hfl : char_to_line t c.selection_range.start ≤
      char_to_line t c.selection_range.stop := char_to_line_mono t hsel
  have hll : char_to_line t c.selection_range.stop ≤ count_newlines t :=
    char_to_line_le_newlines t c.selection_range.stop
  obtain ⟨s1, s2, s3, s4⟩ := unindent_lines_spec
    (char_to_line t c.selection_range.stop -
      char_to_line t c.selection_range.start + 1)
    (char_to_line t c.selection_range.start) t (by omega)
  have hs3 := s3 (char_to_line t c.selection_range.start) (le_refl _)
  have hs4 := s4 (char_to_line t c.selection_range.stop + 1) (by omega)
  rw [← ht, ← hd]
  dsimp only
  omega

end Zee

namespace Zee

/-- C2: for every editing operation that returns (does not panic), the
difference `new_char_length - old_char_length` of its diff equals the change
in the buffer's character length. -/
theorem apply_op_delta (op : EditOp) (t : Text) (c : Cursor) (t' : Text)
    (c' : Cursor) (d : OpaqueDiff) (hwf : WfCursor t c)
    (happ : apply_op op t c = some (t', c', d)) :
    (d.new_char_length : Int) - d.old_char_length = (t'.length : Int) - t.length := by
  obtain ⟨h1, h2, h3⟩ := hwf
  cases op with
  | insChar ch =>
    simp only [apply_op, Option.some_inj] at happ
    have ht : (insert_char t c ch).1 = t' := congrArg Prod.fst happ
    have hd : (insert_char t c ch).2.2 = d := congrArg (fun p => p.2.2) happ
    rw [← ht, ← hd]
    show ((1 : Nat) : Int) - ((0 : Nat) : Int) =
      ((insert_at t c.range.start ch).length : Int) - t.length
    rw [insert_at_length]
    omega
  | insChars cs =>
    cases hsel : c.selection with
    | none =>
      simp only [apply_op] at happ
      rw [insert_chars_none t c cs hsel, Option.some_inj] at happ
      have ht : (internal_insert_chars_at_index t c.range.start cs).1 = t' :=
        congrArg Prod.fst happ
      have hd := congrArg (fun p : Text × Cursor × OpaqueDiff => p.2.2) happ
      dsimp only at hd
      obtain ⟨hl, hn⟩ := internal_insert_spec cs t c.range.start
      rw [← ht, ← hd]
      dsimp only
      omega
    | some s =>
      simp only [apply_op] at happ
      have hps : insert_chars t c cs = prepend_selection t c cs := by
        unfold insert_chars insert_chars_at_index
        rw [hsel]
      rw [hps] at happ
      exact prepend_selection_delta t c cs t' c' d happ
  | prepChars cs =>
    cases hsel : c.selection with
    | none =>
      simp only [apply_op] at happ
      rw [prepend_chars_none t c cs hsel, Option.some_inj] at happ
      have ht : (internal_insert_chars_at_index t
          (line_to_char t (char_to_line t c.range.start)) cs).1 = t' :=
        congrArg Prod.fst happ
      have hd := congrArg (fun p : Text × Cursor × OpaqueDiff => p.2.2) happ
      dsimp only at hd
      obtain ⟨hl, hn⟩ := internal_insert_spec cs t
        (line_to_char t (char_to_line t c.range.start))
      rw [← ht, ← hd]
      dsimp only
      omega
    | some s =>
      simp only [apply_op] at happ
      have hps : prepend_chars t c cs = prepend_selection t c cs := by
        unfold prepend_chars insert_chars_at_index
        rw [hsel]
      rw [hps] at happ
      exact prepend_selection_delta t c cs t' c' d happ
  | unindentOp =>
    cases hsel : c.selection with
    | none =>
      simp only [apply_op] at happ
      rw [unindent_none t c hsel] at happ
      simp only [Option.map_some', Option.some_inj] at happ
      have ht : (delete_forward_from_index t c
          (line_to_char t (char_to_line t c.range.start))
          (length_of_leading_whitespace t
            (line_to_char t (char_to_line t c.range.start)))).1 = t' :=
        congrArg Prod.fst happ
      have hd : (delete_forward_from_index t c
          (line_to_char t (char_to_line t c.range.start))
          (length_of_leading_whitespace t
            (line_to_char t (char_to_line t c.range.start)))).2.2.diff = d :=
        congrArg (fun p => p.2.2) happ
      have hidx : line_to_char t (char_to_line t c.range.start) +
          length_of_leading_whitespace t
            (line_to_char t (char_to_line t c.range.start)) ≤ t.length := by
        rcases lw_le t (line_to_char t (char_to_line t c.range.start)) with h0 | h0
        · have := line_to_char_le t (char_to_line t c.range.start)
          omega
        · exact h0
      have := dffi_delta t c (line_to_char t (char_to_line t c.range.start))
        (length_of_leading_whitespace t
          (line_to_char t (char_to_line t c.range.start))) hidx
      rw [ht, hd] at this
      exact this
    | some s =>
      simp only [apply_op] at happ
      have hu : unindent t c = unindent_selection t c := by
        unfold unindent
        rw [hsel]
      rw [hu, Option.map_eq_some'] at happ
      obtain ⟨⟨ta, ca, ra⟩, ha, hfa⟩ := happ
      have hsw := selection_range_wf t c ⟨h1, h2, h3⟩
      have hdelta := unindent_selection_delta t c ta ca ra hsw.1 ha
      have ht : ta = t' := congrArg Prod.fst hfa
      have hd : ra.diff = d := congrArg (fun p => p.2.2) hfa
      rw [← ht, ← hd]
      exact hdelta
  | delForward =>
    simp only [apply_op, Option.some_inj] at happ
    have ht : (delete_forward t c).1 = t' := congrArg Prod.fst happ
    have hd : (delete_forward t c).2.2.diff = d := congrArg (fun p => p.2.2) happ
    have heq : delete_forward t c =
        delete_forward_from_index t c c.range.start
          (c.range.stop - c.range.start) := rfl
    have := dffi_delta t c c.range.start (c.range.stop - c.range.start) (by omega)
    rw [← heq, ht, hd] at this
    exact this
  | delBackward =>
    by_cases h0 : 0 < c.range.start
    · have heq : delete_backward t c =
          delete_forward_from_index t (move_horizontally t c .Backward 1)
            (move_horizontally t c .Backward 1).range.start
            ((move_horizontally t c .Backward 1).range.stop -
              (move_horizontally t c .Backward 1).range.start) := by
        unfold delete_backward
        rw [if_pos h0]
        rfl
      simp only [apply_op, Option.some_inj] at happ
      have ht : (delete_backward t c).1 = t' := congrArg Prod.fst happ
      have hd : (delete_backward t c).2.2.diff = d := congrArg (fun p => p.2.2) happ
      have hmv := move_horizontally_valid t c .Backward 1 ⟨h1, h2⟩
      have := dffi_delta t (move_horizontally t c .Backward 1)
        (move_horizontally t c .Backward 1).range.start
        ((move_horizontally t c .Backward 1).range.stop -
          (move_horizontally t c .Backward 1).range.start)
        (by obtain ⟨hm1, hm2⟩ := hmv; omega)
      rw [← heq, ht, hd] at this
      exact this
    · have heq : delete_backward t c = (t, c, DeleteOperation.empty) := by
        unfold delete_backward
        rw [if_neg h0]
      simp only [apply_op, heq, Option.some_inj] at happ
      have ht : t = t' := congrArg Prod.fst happ
      have hd : DeleteOperation.empty.diff = d := congrArg (fun p => p.2.2) happ
      rw [← ht, ← hd]
      simp [DeleteOperation.empty, OpaqueDiff.empty]
  | delLine =>
    simp only [apply_op, Option.some_inj] at happ
    have ht : (delete_line t c).1 = t' := congrArg Prod.fst happ
    have hd : (delete_line t c).2.2.diff = d := congrArg (fun p => p.2.2) happ
    by_cases hcond : t.length = 0
    · have heq : delete_line t c = (t, c, DeleteOperation.empty) := by
        unfold delete_line
        rw [if_pos hcond]
      rw [← ht, ← hd, heq]
      simp [DeleteOperation.empty, OpaqueDiff.empty]
    · have heq1 : (delete_line t c).1 =
          remove_range t (line_to_char t (char_to_line t c.range.start))
            (line_to_char t (char_to_line t c.range.start + 1)) := by
        unfold delete_line
        rw [if_neg hcond]
      have heq2 : (delete_line t c).2.2.diff =
          ⟨char_to_byte t (line_to_char t (char_to_line t c.range.start)),
            char_to_byte t (line_to_char t (char_to_line t c.range.start + 1)) -
              char_to_byte t (line_to_char t (char_to_line t c.range.start)), 0,
            line_to_char t (char_to_line t c.range.start),
            line_to_char t (char_to_line t c.range.start + 1) -
              line_to_char t (char_to_line t c.range.start), 0⟩ := by
        unfold delete_line
        rw [if_neg hcond]
      have hmono : line_to_char t (char_to_line t c.range.start) ≤
          line_to_char t (char_to_line t c.range.start + 1) :=
        line_to_char_mono t (by omega)
      have hle := line_to_char_le t (char_to_line t c.range.start + 1)
      have hrem := remove_range_length t
        (line_to_char t (char_to_line t c.range.start))
        (line_to_char t (char_to_line t c.range.start + 1)) hmono hle
      rw [← ht, ← hd, heq1, heq2]
      dsimp only
      omega
  | delSelection =>
    simp only [apply_op, Option.some_inj] at happ
    have ht : (delete_selection t c).1 = t' := congrArg Prod.fst happ
    have hd : (delete_selection t c).2.2.diff = d := congrArg (fun p => p.2.2) happ
    by_cases hcond : t.length = 0
    · have heq : delete_selection t c = (t, c, DeleteOperation.empty) := by
        unfold delete_selection
        rw [if_pos hcond]
      rw [← ht, ← hd, heq]
      simp [DeleteOperation.empty, OpaqueDiff.empty]
    · have heq1 : (delete_selection t c).1 =
          remove_range t c.selection_range.start c.selection_range.stop := by
        unfold delete_selection
        rw [if_neg hcond]
      have heq2 : (delete_selection t c).2.2.diff =
          ⟨char_to_byte t c.selection_range.start,
            char_to_byte t c.selection_range.stop -
              char_to_byte t c.selection_range.start, 0,
            c.selection_range.start,
            c.selection_range.stop - c.selection_range.start, 0⟩ := by
        unfold delete_selection
        rw [if_neg hcond]
      have hsw := selection_range_wf t c ⟨h1, h2, h3⟩
      have hrem := remove_range_length t c.selection_range.start
        c.selection_range.stop hsw.1 hsw.2
      rw [← ht, ← hd, heq1, heq2]
      dsimp only
      omega

end Zee

namespace Zee

-- ## Watcher: first-match removal and inner-watch bookkeeping

theorem remove_first_none (p : List String) (tok : Nat) :
    ∀ ws : List Watchee, (∀ w ∈ ws, ¬(w.token = tok ∧ w.path = p)) →
      remove_first p tok ws = none := by
  intro ws
  induction ws with
  | nil => intro _; rfl
  | cons w ws ih =>
    intro h
    unfold remove_first
    rw [if_neg (h w (by simp)), ih (fun x hx => h x (by simp [hx]))]
    rfl

theorem remove_first_some (p : List String) (tok : Nat) :
    ∀ (ws : List Watchee) (w : Watchee) (rest : List Watchee),
      remove_first p tok ws = some (w, rest) →
      ∃ pre post, ws = pre ++ w :: post ∧ rest = pre ++ post ∧
        (∀ x ∈ pre, ¬(x.token = tok ∧ x.path = p)) ∧ w.token = tok ∧ w.path = p := by
  intro ws
  induction ws with
  | nil => intro w rest h; simp [remove_first] at h
  | cons a ws ih =>
    intro w rest h
    unfold remove_first at h
    by_cases ha : a.token = tok ∧ a.path = p
    · rw [if_pos ha, Option.some_inj] at h
      have hw : a = w := congrArg Prod.fst h
      have hr : ws = rest := congrArg Prod.snd h
      refine ⟨[], ws, ?_, ?_, ?_, ?_, ?_⟩
      · rw [← hw]; rfl
      · rw [← hr]; rfl
      · intro x hx; simp at hx
      · rw [← hw]; exact ha.1
      · rw [← hw]; exact ha.2
    · rw [if_neg ha, Option.map_eq_some'] at h
      obtain ⟨⟨w2, rest2⟩, hr2, hval⟩ := h
      obtain ⟨pre, post, e1, e2, e3, e4, e5⟩ := ih w2 rest2 hr2
      have hww : w2 = w := congrArg Prod.fst hval
      have hrr : a :: rest2 = rest := congrArg Prod.snd hval
      refine ⟨a :: pre, post, ?_, ?_, ?_, ?_, ?_⟩
      · rw [List.cons_append, ← hww, ← e1]
      · rw [← hrr, e2]; rfl
      · intro x hx
        rcases List.mem_cons.mp hx with hx | hx
        · rw [hx]; exact ha
        · exact e3 x hx
      · rw [← hww]; exact e4
      · rw [← hww]; exact e5

theorem mem_foldl_paths :
    ∀ (ws : List Watchee) (acc : List (List String)) (x : List String),
      x ∈ ws.foldl (fun a w => w.path :: a) acc ↔ x ∈ acc ∨ ∃ w ∈ ws, w.path = x := by
  intro ws
  induction ws with
  | nil => intro acc x; simp
  | cons w ws ih =>
    intro acc x
    rw [List.foldl_cons, ih]
    constructor
    · rintro (hx | hx)
      · rcases List.mem_cons.mp hx with hx | hx
        · exact Or.inr ⟨w, by simp, hx.symm⟩
        · exact Or.inl hx
      · obtain ⟨w2, hw2, he⟩ := hx
        exact Or.inr ⟨w2, by simp [hw2], he⟩
    · rintro (hx | hx)
      · exact Or.inl (List.mem_cons.mpr (Or.inr hx))
      · obtain ⟨w2, hw2, he⟩ := hx
        rcases List.mem_cons.mp hw2 with hw2 | hw2
        · exact Or.inl (List.mem_cons.mpr (Or.inl (by rw [← he, hw2])))
        · exact Or.inr ⟨w2, hw2, he⟩

theorem unwatch_no_match (s : WatcherState) (p : List String) (tok : Nat)
    (h : ∀ w ∈ s.watchees, ¬(w.token = tok ∧ w.path = p)) :
    unwatch s p tok = s := by
  unfold unwatch
  rw [remove_first_none p tok s.watchees h]

theorem unwatch_match (s : WatcherState) (p : List String) (tok : Nat)
    (removed : Watchee) (rest : List Watchee)
    (h : remove_first p tok s.watchees = some (removed, rest)) :
    (unwatch s p tok).watchees = rest ∧
      ((∃ w2 ∈ rest, w2.path = removed.path) →
        removed.path ∈ s.inner → removed.path ∈ (unwatch s p tok).inner) ∧
      ((∀ w2 ∈ rest, w2.path ≠ removed.path) →
        removed.path ∉ (unwatch s p tok).inner) := by
  have heq : unwatch s p tok =
      { watchees := rest,
        inner :=
          if removed.recursive then
            (rest.filter (fun w => removed.path.isPrefixOf w.path)).foldl
              (fun acc w => w.path :: acc)
              (if rest.any (fun w => w.path == removed.path) then s.inner
                else s.inner.filter (fun q => !(q == removed.path)))
          else
            (if rest.any (fun w => w.path == removed.path) then s.inner
              else s.inner.filter (fun q => !(q == removed.path))) } := by
    unfold unwatch
    rw [h]
  rw [heq]
  refine ⟨rfl, ?_, ?_⟩
  · intro hex hmem
    have hany : rest.any (fun w => w.path == removed.path) = true := by
      rw [List.any_eq_true]
      obtain ⟨w2, hw2, he⟩ := hex
      exact ⟨w2, hw2, by simp [he]⟩
    dsimp only
    rw [hany]
    split
    · rw [mem_foldl_paths]
      left
      simpa using hmem
    · simpa using hmem
  · intro hall
    have hany : rest.any (fun w => w.path == removed.path) = false := by
      rw [List.any_eq_false]
      intro w2 hw2
      simp [hall w2 hw2]
    dsimp only
    rw [hany]
    have hnf : removed.path ∉ s.inner.filter (fun q => !(q == removed.path)) := by
      intro hmem
      have := List.of_mem_filter hmem
      simp at this
    split
    · rw [mem_foldl_paths]
      rintro (hx | ⟨w2, hw2, he⟩)
      · simp at hx
      · exact hall w2 (List.mem_of_mem_filter hw2) he
    · simpa using hnf

end Zee

namespace Zee

-- ## Claim theorems

/-- C1 (amended): for every buffer and every cursor obtained from
`Cursor::new` by any sequence of the editing and reconciliation operations
(`insert_char`, `insert_chars`, `prepend_chars`, `unindent`, `delete_forward`,
`delete_backward`, `delete_line`, `delete_selection`, `reconcile`, `sync`,
modelled by `Step`), the resulting cursor satisfies
`0 ≤ range.start ≤ range.end ≤ len_chars`. The grapheme-boundary part of the
original claim does not hold (see the counterexample): an insertion can make a
neighbouring character merge with a following combining mark, leaving an
endpoint inside a cluster. -/
theorem C1_range_in_bounds (t0 : Text) (s : Text × Cursor)
    (h : Relation.ReflTransGen Step (t0, Cursor.new) s) :
    s.2.range.start ≤ s.2.range.stop ∧ s.2.range.stop ≤ len_chars s.1 := by
  have hinv := steps_inv (t0, Cursor.new) s h ⟨rfl, Nat.le_refl 0, Nat.zero_le _⟩
  exact ⟨hinv.2.1, hinv.2.2⟩

theorem C1_range_in_bounds_witness :
    Cursor.new.range.start ≤ Cursor.new.range.stop ∧
      Cursor.new.range.stop ≤ len_chars ['a'] :=
  C1_range_in_bounds ['a'] (['a'], Cursor.new) Relation.ReflTransGen.refl

/-- C1 counterexample: starting from `Cursor::new` on the buffer `[U+0301]`
(a lone combining acute accent), a `sync` step yields the cursor `0..1`, and
`insert_char 'b'` then produces the buffer `"b́"` while leaving the range
`0..1` — but 1 is not a grapheme-cluster boundary of `"b́"` (the
combining mark belongs to the cluster of `b`), refuting the boundary part of
the claim as stated. -/
theorem C1_boundary_counterexample :
    Step (['́'], Cursor.new)
      (['́'], sync ['́'] ['́'] Cursor.new) ∧
      Step (['́'], sync ['́'] ['́'] Cursor.new)
        ((insert_char ['́'] (sync ['́'] ['́'] Cursor.new) 'b').1,
          (insert_char ['́'] (sync ['́'] ['́'] Cursor.new) 'b').2.1) ∧
      (insert_char ['́'] (sync ['́'] ['́'] Cursor.new) 'b').2.1.range =
        ⟨0, 1⟩ ∧
      is_boundary (insert_char ['́'] (sync ['́'] ['́'] Cursor.new) 'b').1
        (insert_char ['́'] (sync ['́'] ['́'] Cursor.new)
          'b').2.1.range.stop = false := by
  refine ⟨Step.syncStep _ _ _, Step.edit (.insChar 'b') _ _ _ _ _ rfl, ?_, ?_⟩
  · decide
  · decide

/-- C2: for every editing operation applied to a well-formed buffer/cursor
pair that returns a Diff Record, `new_char_length - old_char_length` equals
the net change in the buffer's `len_chars`. -/
theorem C2_diff_char_delta (op : EditOp) (t : Text) (c : Cursor) (t' : Text)
    (c' : Cursor) (d : OpaqueDiff) (hwf : WfCursor t c)
    (happ : apply_op op t c = some (t', c', d)) :
    (d.new_char_length : Int) - d.old_char_length =
      (len_chars t' : Int) - len_chars t :=
  apply_op_delta op t c t' c' d hwf happ

theorem C2_diff_char_delta_witness :
    ((insert_char ['a'] Cursor.new 'b').2.2.new_char_length : Int) -
        (insert_char ['a'] Cursor.new 'b').2.2.old_char_length =
      (len_chars (insert_char ['a'] Cursor.new 'b').1 : Int) - len_chars ['a'] :=
  C2_diff_char_delta (.insChar 'b') ['a'] Cursor.new
    (insert_char ['a'] Cursor.new 'b').1 (insert_char ['a'] Cursor.new 'b').2.1
    (insert_char ['a'] Cursor.new 'b').2.2
    ⟨Nat.le_refl 0, Nat.zero_le _, fun s hs => by simp [Cursor.new] at hs⟩ rfl

/-- C3 (code bug): on buffer `"ab"` with the cursor over the single grapheme
`'a'`, `delete_forward` removes `'a'` but its Delete Result's `deleted` field
is `"b"` — it is computed from the buffer *after* `text.remove`, so it is the
cluster now at the deletion point, not an owned copy of the removed slice.
Reinserting the reported `deleted` text at the diff's `char_index` yields
`"bb"`, not the original `"ab"`, refuting the round trip. (`delete_line` and
`delete_selection` copy the slice before removing; `delete_forward_from_index`
slices after — the slip.) -/
theorem C3_delete_forward_deleted_field :
    (delete_forward ['a', 'b'] (Cursor.with_range ⟨0, 1⟩)).1 = ['b'] ∧
      (delete_forward ['a', 'b'] (Cursor.with_range ⟨0, 1⟩)).2.2.deleted = ['b'] ∧
      (delete_forward ['a', 'b'] (Cursor.with_range ⟨0, 1⟩)).2.2.diff.char_index = 0 ∧
      ((delete_forward ['a', 'b'] (Cursor.with_range ⟨0, 1⟩)).1.take 0 ++
          (delete_forward ['a', 'b'] (Cursor.with_range ⟨0, 1⟩)).2.2.deleted ++
          (delete_forward ['a', 'b'] (Cursor.with_range ⟨0, 1⟩)).1.drop 0 =
        ['b', 'b']) ∧
      ['b', 'b'] ≠ ['a', 'b'] := by
  refine ⟨?_, ?_, ?_, ?_, ?_⟩
  all_goals decide

/-- C4 (amended): `reconcile` returns the cursor unchanged when the diff's
`char_index` is at or after the cursor's end. Otherwise — because the source
computes `modified_range` as `char_index..max(old_char_length,
new_char_length)` (without adding `char_index`) and does not return after the
shift branch — the range is first shifted by the char-length delta (saturating
at zero) when `max(old_char_length, new_char_length) ≤ range.start`, and the
cursor then always snaps to the grapheme cluster around the (possibly shifted)
end in the new buffer, keeping selection and visual offset; the snapped range
is ordered, inside the new buffer, and on grapheme boundaries. -/
theorem C4_reconcile_rule (c : Cursor) (t' : Text) (d : OpaqueDiff) :
    (c.range.stop ≤ d.char_index → reconcile c t' d = c) ∧
      (d.char_index < c.range.stop →
        (reconcile c t' d).selection = c.selection ∧
          (reconcile c t' d).visual_horizontal_offset =
            c.visual_horizontal_offset ∧
          (reconcile c t' d).range =
            ⟨prev_grapheme_boundary t'
                (min
                  (if max d.old_char_length d.new_char_length ≤ c.range.start then
                    (if d.new_char_length < d.old_char_length then
                      c.range.stop - (d.old_char_length - d.new_char_length)
                    else c.range.stop + (d.new_char_length - d.old_char_length))
                  else c.range.stop) t'.length),
              next_grapheme_boundary t'
                (prev_grapheme_boundary t'
                  (min
                    (if max d.old_char_length d.new_char_length ≤ c.range.start then
                      (if d.new_char_length < d.old_char_length then
                        c.range.stop - (d.old_char_length - d.new_char_length)
                      else c.range.stop + (d.new_char_length - d.old_char_length))
                    else c.range.stop) t'.length))⟩ ∧
          is_boundary t' (reconcile c t' d).range.start = true ∧
          is_boundary t' (reconcile c t' d).range.stop = true ∧
          (reconcile c t' d).range.start ≤ (reconcile c t' d).range.stop ∧
          (reconcile c t' d).range.stop ≤ t'.length) := by
  constructor
  · intro hcond
    unfold reconcile
    rw [if_pos hcond]
  · intro hcond
    have hneg : ¬ (c.range.stop ≤ d.char_index) := by omega
    simp only [reconcile]
    rw [if_neg hneg]
    refine ⟨rfl, rfl, ?_, ?_, ?_, ?_, ?_⟩
    · dsimp only
      split_ifs
      all_goals rfl
    · exact is_boundary_prev_gb t' _
    · exact is_boundary_next_gb t' _
    · exact next_gb_ge _ _ (prev_gb_le_len _ _)
    · exact next_gb_le _ _

theorem C4_reconcile_rule_witness :
    reconcile (Cursor.with_range ⟨1, 2⟩) ['a', 'b', 'c'] ⟨5, 0, 0, 2, 0, 0⟩ =
      Cursor.with_range ⟨1, 2⟩ :=
  (C4_reconcile_rule (Cursor.with_range ⟨1, 2⟩) ['a', 'b', 'c']
    ⟨5, 0, 0, 2, 0, 0⟩).1 (by decide)

/-- C4 counterexample: old buffer `"abcdef"`, caret `3..3`, another cursor
inserts one character at index 0 producing `"xabcdef"` with diff
`{char_index := 0, old_char_length := 0, new_char_length := 1}`. The claim's
rule says the caret is shifted to `4..4`; the code shifts and then falls
through into the grapheme snap, producing `3..4`. -/
theorem C4_reconcile_counterexample :
    reconcile ⟨⟨3, 3⟩, none, none⟩ ['x', 'a', 'b', 'c', 'd', 'e', 'f']
        ⟨0, 0, 1, 0, 0, 1⟩ =
      ⟨⟨3, 4⟩, none, none⟩ ∧
      (⟨⟨3, 4⟩, none, none⟩ : Cursor) ≠ ⟨⟨4, 4⟩, none, none⟩ := by
  refine ⟨?_, ?_⟩
  all_goals decide

/-- C5 (amended): deletions through `delete_forward_from_index` (hence
`delete_forward`, `delete_backward` and `unindent` without selection) return
the all-zero no-op Delete Result and leave buffer and cursor untouched when
the buffer is empty, the index is at the buffer end, or the length is zero;
in particular on an empty buffer `delete_forward`/`delete_backward` leave the
buffer empty and the default cursor at `(0,0)` with no selection. `delete_line`
and `delete_selection` on a zero-length region also leave the buffer
unmodified and report all length fields zero, but their diff records the
region's `char_index`/`byte_index` (which may be nonzero — see the
counterexample), and they still rebuild the cursor. -/
theorem C5_empty_deletions (t : Text) (c : Cursor) (index len : Nat) :
    ((t.length = 0 ∨ t.length = index ∨ len = 0) →
      delete_forward_from_index t c index len = (t, c, DeleteOperation.empty)) ∧
      (t.length = 0 →
        delete_forward t Cursor.new = (t, Cursor.new, DeleteOperation.empty) ∧
          delete_backward t Cursor.new = (t, Cursor.new, DeleteOperation.empty)) ∧
      (¬ t.length = 0 →
        line_to_char t (char_to_line t c.range.start + 1) =
          line_to_char t (char_to_line t c.range.start) →
        (delete_line t c).1 = t ∧
          (delete_line t c).2.2.diff.old_byte_length = 0 ∧
          (delete_line t c).2.2.diff.new_byte_length = 0 ∧
          (delete_line t c).2.2.diff.old_char_length = 0 ∧
          (delete_line t c).2.2.diff.new_char_length = 0) ∧
      (¬ t.length = 0 →
        c.selection_range.stop = c.selection_range.start →
        (delete_selection t c).1 = t ∧
          (delete_selection t c).2.2.diff.old_byte_length = 0 ∧
          (delete_selection t c).2.2.diff.new_byte_length = 0 ∧
          (delete_selection t c).2.2.diff.old_char_length = 0 ∧
          (delete_selection t c).2.2.diff.new_char_length = 0) := by
  refine ⟨?_, ?_, ?_, ?_⟩
  · intro hcond
    unfold delete_forward_from_index
    rw [if_pos hcond]
  · intro h0
    constructor
    · unfold delete_forward delete_forward_from_index
      rw [if_pos (Or.inl h0)]
    · unfold delete_backward
      rw [if_neg (by decide)]
  · intro hcond hzero
    have heq1 : (delete_line t c).1 =
        remove_range t (line_to_char t (char_to_line t c.range.start))
          (line_to_char t (char_to_line t c.range.start + 1)) := by
      unfold delete_line
      rw [if_neg hcond]
    have heq2 : (delete_line t c).2.2.diff =
        ⟨char_to_byte t (line_to_char t (char_to_line t c.range.start)),
          char_to_byte t (line_to_char t (char_to_line t c.range.start + 1)) -
            char_to_byte t (line_to_char t (char_to_line t c.range.start)), 0,
          line_to_char t (char_to_line t c.range.start),
          line_to_char t (char_to_line t c.range.start + 1) -
            line_to_char t (char_to_line t c.range.start), 0⟩ := by
      unfold delete_line
      rw [if_neg hcond]
    refine ⟨?_, ?_, ?_, ?_, ?_⟩
    · rw [heq1, hzero, remove_range_self]
    · rw [heq2, hzero]
      simp
    · rw [heq2]
    · rw [heq2, hzero]
      simp
    · rw [heq2]
  · intro hcond hzero
    have heq1 : (delete_selection t c).1 =
        remove_range t c.selection_range.start c.selection_range.stop := by
      unfold delete_selection
      rw [if_neg hcond]
    have heq2 : (delete_selection t c).2.2.diff =
        ⟨char_to_byte t c.selection_range.start,
          char_to_byte t c.selection_range.stop -
            char_to_byte t c.selection_range.start, 0,
          c.selection_range.start,
          c.selection_range.stop - c.selection_range.start, 0⟩ := by
      unfold delete_selection
      rw [if_neg hcond]
    refine ⟨?_, ?_, ?_, ?_, ?_⟩
    · rw [heq1, hzero, remove_range_self]
    · rw [heq2, hzero]
      simp
    · rw [heq2]
    · rw [heq2, hzero]
      simp
    · rw [heq2]

theorem C5_empty_deletions_witness :
    delete_forward_from_index [] Cursor.new 0 3 =
      ([], Cursor.new, DeleteOperation.empty) :=
  (C5_empty_deletions [] Cursor.new 0 3).1 (by decide)

/-- C5 counterexample: on buffer `"a\n"` with the caret `2..2` on the empty
final line, `delete_line` is an empty operation (deletion length zero,
buffer unmutated) yet its diff's `char_index` and `byte_index` are 2, not 0,
refuting "all index and length fields equal to zero" as stated. -/
theorem C5_delete_line_counterexample :
    (delete_line ['a', '\n'] (Cursor.with_range ⟨2, 2⟩)).1 = ['a', '\n'] ∧
      (delete_line ['a', '\n'] (Cursor.with_range ⟨2, 2⟩)).2.2.diff.old_char_length =
        0 ∧
      (delete_line ['a', '\n'] (Cursor.with_range ⟨2, 2⟩)).2.2.diff.char_index = 2 ∧
      (delete_line ['a', '\n'] (Cursor.with_range ⟨2, 2⟩)).2.2.diff.byte_index = 2 ∧
      ((2 : Nat) ≠ 0) := by
  refine ⟨?_, ?_, ?_, ?_, ?_⟩
  all_goals decide

end Zee

namespace Zee

/-- C6 (amended): `insert_char` always clears an active selection and inserts
at `range.start`, leaving the range itself unchanged; `insert_chars` behaves
this way only when no selection is active — with an active selection it
instead dispatches to `prepend_selection`, which inserts at the start of every
selected line and repositions both the caret and the anchor (see the
counterexample). -/
theorem C6_insert_at_caret (t : Text) (c : Cursor) (ch : Char) (cs : List Char) :
    ((insert_char t c ch).1 = insert_at t c.range.start ch ∧
      (insert_char t c ch).2.1.selection = none ∧
      (insert_char t c ch).2.1.range = c.range) ∧
      (c.selection = none →
        insert_chars t c cs =
          some ((internal_insert_chars_at_index t c.range.start cs).1, c,
            ⟨char_to_byte (internal_insert_chars_at_index t c.range.start cs).1
                c.range.start, 0,
              (internal_insert_chars_at_index t c.range.start cs).2.1,
              c.range.start, 0,
              (internal_insert_chars_at_index t c.range.start cs).2.2⟩)) := by
  refine ⟨⟨rfl, rfl, rfl⟩, ?_⟩
  intro hc
  exact insert_chars_none t c cs hc

theorem C6_insert_at_caret_witness :
    insert_chars ['a'] Cursor.new ['x'] =
      some ((internal_insert_chars_at_index ['a'] Cursor.new.range.start ['x']).1,
        Cursor.new,
        ⟨char_to_byte
            (internal_insert_chars_at_index ['a'] Cursor.new.range.start ['x']).1
            Cursor.new.range.start, 0,
          (internal_insert_chars_at_index ['a'] Cursor.new.range.start ['x']).2.1,
          Cursor.new.range.start, 0,
          (internal_insert_chars_at_index ['a'] Cursor.new.range.start ['x']).2.2⟩) :=
  (C6_insert_at_caret ['a'] Cursor.new 'x' ['x']).2 rfl

/-- C6 counterexample: on buffer `"ab\ncd\n"` with cursor `4..5` and selection
anchor 0 (a selection spanning both lines), `insert_chars "x"` does not clear
the selection and does not insert at `range.start = 4`: it prepends `x` to
both selected lines giving `"xab\nxcd\n"`, moves the caret to `5..6` and sets
the anchor to 2. -/
theorem C6_insert_chars_selection_counterexample :
    insert_chars ['a', 'b', '\n', 'c', 'd', '\n'] ⟨⟨4, 5⟩, some 0, none⟩ ['x'] =
      some (['x', 'a', 'b', '\n', 'x', 'c', 'd', '\n'],
        ⟨⟨5, 6⟩, some 2, none⟩, ⟨0, 5, 7, 0, 5, 7⟩) ∧
      (some 2 : Option Nat) ≠ none ∧
      ['x', 'a', 'b', '\n', 'x', 'c', 'd', '\n'] ≠
        insert_at ['a', 'b', '\n', 'c', 'd', '\n'] 4 'x' := by
  refine ⟨?_, ?_, ?_⟩
  all_goals decide

/-- C7 (code bug): `insert_chars` and `unindent` are not total. With an active
selection confined to a single line, `prepend_selection` and
`unindent_selection` divide by `last_line_idx - first_line_idx = 0` — a
division-by-zero panic in the source, `none` in this embedding; and
`prepend_selection` with an empty character sequence underflows on
`num_chars - 1`. -/
theorem C7_single_line_selection_panics :
    insert_chars ['a', 'b', 'c'] ⟨⟨1, 1⟩, some 0, none⟩ ['x'] = none ∧
      unindent ['a', 'b', 'c'] ⟨⟨1, 1⟩, some 0, none⟩ = none ∧
      insert_chars ['a', 'b', '\n', 'c', '\n'] ⟨⟨4, 5⟩, some 0, none⟩ [] = none := by
  refine ⟨?_, ?_, ?_⟩
  all_goals decide

/-- C8 (amended): `sync` takes the cursor's line and intra-line offset in the
old buffer, clamps the line to `len_lines - 1` and the offset to the new
line's char length *minus one* (both saturating, the latter differing from the
claim's "clamped to the new line's length" — see the counterexample), snaps
forward to the next grapheme boundary and back to the previous one, and the
resulting fresh cursor is valid in the new buffer: ordered range, inside the
buffer, endpoints on grapheme boundaries, no selection. -/
theorem C8_sync_clamps_and_snaps (cur t' : Text) (c : Cursor) :
    sync cur t' c =
      Cursor.with_range
        ⟨prev_grapheme_boundary t'
            (next_grapheme_boundary t'
              (line_to_char t'
                  (min (char_to_line cur c.range.start) (len_lines t' - 1)) +
                min (c.range.start -
                    line_to_char cur (char_to_line cur c.range.start))
                  (line_len t'
                      (min (char_to_line cur c.range.start) (len_lines t' - 1)) -
                    1))),
          next_grapheme_boundary t'
            (line_to_char t'
                (min (char_to_line cur c.range.start) (len_lines t' - 1)) +
              min (c.range.start -
                  line_to_char cur (char_to_line cur c.range.start))
                (line_len t'
                    (min (char_to_line cur c.range.start) (len_lines t' - 1)) -
                  1))⟩ ∧
      (sync cur t' c).selection = none ∧
      (sync cur t' c).range.start ≤ (sync cur t' c).range.stop ∧
      (sync cur t' c).range.stop ≤ len_chars t' ∧
      is_boundary t' (sync cur t' c).range.start = true ∧
      is_boundary t' (sync cur t' c).range.stop = true := by
  refine ⟨rfl, rfl, ?_, ?_, ?_, ?_⟩
  · exact prev_gb_le_self _ _
  · exact next_gb_le _ _
  · exact is_boundary_prev_gb t' _
  · exact is_boundary_next_gb t' _

/-- C8 counterexample: old buffer `"abcd"` with the caret at the end (`4..4`,
line 0, offset 4), new buffer `"xy\nz"`. The claim's rule — offset clamped to
the new line's length (3 for `"xy\n"`) — lands at index 3 and yields the
cursor `3..4` (on `'z'`, the wrong line); the code clamps to length − 1,
lands on the newline and yields `2..3`. -/
theorem C8_sync_counterexample :
    sync ['a', 'b', 'c', 'd'] ['x', 'y', '\n', 'z'] (Cursor.with_range ⟨4, 4⟩) =
      Cursor.with_range ⟨2, 3⟩ ∧
      sync_per_spec ['a', 'b', 'c', 'd'] ['x', 'y', '\n', 'z']
          (Cursor.with_range ⟨4, 4⟩) =
        Cursor.with_range ⟨3, 4⟩ ∧
      Cursor.with_range ⟨2, 3⟩ ≠ Cursor.with_range ⟨3, 4⟩ := by
  refine ⟨?_, ?_, ?_⟩
  all_goals decide

/-- C10: `FileWatcher::unwatch` removes exactly the first registration whose
token and path both match (the state is unchanged when none matches); the
underlying filesystem watch on the removed path is kept whenever another
registration for the same path remains, and it is dropped (and not re-added by
the recursive re-add loop) only when no remaining registration refers to that
path — so other tokens registered for the same path keep receiving events. -/
theorem C10_unwatch_first_match (s : WatcherState) (p : List String) (tok : Nat) :
    ((∀ w ∈ s.watchees, ¬(w.token = tok ∧ w.path = p)) → unwatch s p tok = s) ∧
      (∀ removed rest, remove_first p tok s.watchees = some (removed, rest) →
        (∃ pre post, s.watchees = pre ++ removed :: post ∧ rest = pre ++ post ∧
            (∀ x ∈ pre, ¬(x.token = tok ∧ x.path = p)) ∧
            removed.token = tok ∧ removed.path = p) ∧
          (unwatch s p tok).watchees = rest ∧
          ((∃ w2 ∈ rest, w2.path = removed.path) →
            removed.path ∈ s.inner → removed.path ∈ (unwatch s p tok).inner) ∧
          ((∀ w2 ∈ rest, w2.path ≠ removed.path) →
            removed.path ∉ (unwatch s p tok).inner)) := by
  refine ⟨unwatch_no_match s p tok, ?_⟩
  intro removed rest h
  obtain ⟨h1, h2, h3⟩ := unwatch_match s p tok removed rest h
  exact ⟨remove_first_some p tok s.watchees removed rest h, h1, h2, h3⟩

theorem C10_unwatch_first_match_witness :
    unwatch ⟨[⟨["b"], false, 2⟩], [["b"]]⟩ ["a"] 1 =
      ⟨[⟨["b"], false, 2⟩], [["b"]]⟩ :=
  (C10_unwatch_first_match ⟨[⟨["b"], false, 2⟩], [["b"]]⟩ ["a"] 1).1
    (by intro w hw; simp at hw; rw [hw]; decide)

end Zee
